import Mathlib

/-!
# Reflective RapidJSON — object↔JSON reflection engine, shallow embedding

The repository ships the test structures (`lib/tests/structs.h`,
`generator/tests/some_structs.h`) and the README describing the engine.
The engine itself (the recursive serialize/deserialize protocol over the
type-descriptor registry) is not among the provided source files, so the
traversal protocol below is modelled from the specification: the JSON tree,
the traversal strategies, the serializer, the deserializer with its
error-context accumulation, the inheritance-flattening rule for type
descriptors, and the dispatch resolvers for serialization and
deserialization.
-/

namespace ReflectiveRapidJSON

/-- JSON document tree node: object (ordered members), array, string,
number, boolean, null.  Numbers are modelled as integers (the integral
domain the claims exercise). -/
inductive Node where
  | obj (members : List (String × Node))
  | arr (elems : List Node)
  | str (s : String)
  | num (n : Int)
  | boolean (b : Bool)
  | null

/-- The kind tag of a JSON node, used in type-mismatch errors. -/
inductive NodeKind where
  | objectKind
  | arrayKind
  | stringKind
  | numberKind
  | boolKind
  | nullKind
deriving DecidableEq

/-- Kind inspection on a JSON node. -/
def Node.kind : Node → NodeKind
  | Node.obj _ => NodeKind.objectKind
  | Node.arr _ => NodeKind.arrayKind
  | Node.str _ => NodeKind.stringKind
  | Node.num _ => NodeKind.numberKind
  | Node.boolean _ => NodeKind.boolKind
  | Node.null => NodeKind.nullKind

/-- One segment of an error path: a member name or an array index. -/
inductive Seg where
  | fieldName (s : String)
  | index (i : Nat)
deriving DecidableEq

/-- Deserialization error: a type mismatch carrying the path from the
document root to the offending node, the expected node kind and the
actual node kind. -/
inductive DeserErr where
  | typeMismatch (path : List Seg) (expected : NodeKind) (actual : NodeKind)
deriving DecidableEq

/-- The path carried by a deserialization error. -/
def DeserErr.path : DeserErr → List Seg
  | DeserErr.typeMismatch p _ _ => p

/-- In-memory value domain: primitives, strings, enumeration values
(carrying the raw underlying integer), nullable references, sequence
containers, string-keyed associative containers, and reflective objects
as ordered (field name, field value) lists. -/
inductive Value where
  | vInt (i : Int)
  | vBool (b : Bool)
  | vStr (s : String)
  | vEnum (i : Int)
  | vOpt (o : Option Value)
  | vSeq (elems : List Value)
  | vMap (entries : List (String × Value))
  | vObj (fields : List (String × Value))

mutual
/-- Traversal strategy: how a static type is walked (spec §3/§4.1).
Custom overrides are outside the claims considered here. -/
inductive Strategy where
  | primInt
  | primBool
  | text
  | enumeration
  | nullable (inner : Strategy)
  | seqContainer (elem : Strategy)
  | assocContainer (valueStrat : Strategy)
  | reflectiveObject (fds : List FieldD)

/-- Field descriptor: name, is-const flag, the field's traversal
strategy, and the field's default-constructed value (the value the field
holds in a default-constructed instance). -/
inductive FieldD where
  | mk (name : String) (isConst : Bool) (strat : Strategy) (dflt : Value)
end

/-- The name of a field descriptor. -/
def FieldD.name : FieldD → String
  | FieldD.mk n _ _ _ => n

/-- The is-const flag of a field descriptor. -/
def FieldD.isConst : FieldD → Bool
  | FieldD.mk _ c _ _ => c

/-- The traversal strategy of a field descriptor. -/
def FieldD.strat : FieldD → Strategy
  | FieldD.mk _ _ st _ => st

/-- The default-constructed value of a field descriptor. -/
def FieldD.dflt : FieldD → Value
  | FieldD.mk _ _ _ d => d

mutual
/-- Modelled from the spec: the Serializer (§4.2) of the engine missing
from the provided sources.  `serialize v s` walks `v` under strategy `s`
and produces a JSON node; `none` signals a value that does not fit the
strategy (ill-typed input, excluded upstream by the C++ type system). -/
def serialize : Value → Strategy → Option Node
  | v, Strategy.primInt =>
      match v with
      | Value.vInt i => some (Node.num i)
      | _ => none
  | v, Strategy.primBool =>
      match v with
      | Value.vBool b => some (Node.boolean b)
      | _ => none
  | v, Strategy.text =>
      match v with
      | Value.vStr s => some (Node.str s)
      | _ => none
  | v, Strategy.enumeration =>
      match v with
      | Value.vEnum i => some (Node.num i)
      | _ => none
  | v, Strategy.nullable inner =>
      match v with
      | Value.vOpt none => some Node.null
      | Value.vOpt (some w) => serialize w inner
      | _ => none
  | v, Strategy.seqContainer e =>
      match v with
      | Value.vSeq xs => Option.map Node.arr (serializeList xs e)
      | _ => none
  | v, Strategy.assocContainer vs =>
      match v with
      | Value.vMap es => Option.map Node.obj (serializeEntries es vs)
      | _ => none
  | v, Strategy.reflectiveObject fds =>
      match v with
      | Value.vObj fs => Option.map Node.obj (serializeFields fs fds)
      | _ => none
termination_by v s => (sizeOf s, sizeOf v)
decreasing_by all_goals (simp_wf; try omega)

/-- Serialize the elements of a sequence container in iteration order. -/
def serializeList : List Value → Strategy → Option (List Node)
  | [], _ => some []
  | x :: xs, e => do
      let n ← serialize x e
      let ns ← serializeList xs e
      pure (n :: ns)
termination_by xs e => (sizeOf e, sizeOf xs)
decreasing_by all_goals (simp_wf; try omega)

/-- Serialize the entries of an associative container in iteration
order, each key mapped to the serialization of its value. -/
def serializeEntries : List (String × Value) → Strategy → Option (List (String × Node))
  | [], _ => some []
  | (k, v) :: es, vs => do
      let n ← serialize v vs
      let rest ← serializeEntries es vs
      pure ((k, n) :: rest)
termination_by es vs => (sizeOf vs, sizeOf es)
decreasing_by all_goals (simp_wf; try omega)

/-- Serialize the fields of a reflective object: one member per field
descriptor of the flattened list, const fields included, named by the
descriptor's field name. -/
def serializeFields : List (String × Value) → List FieldD → Option (List (String × Node))
  | [], [] => some []
  | (n, v) :: fs, FieldD.mk name _ st _ :: fds =>
      if n = name then do
        let nd ← serialize v st
        let rest ← serializeFields fs fds
        pure ((name, nd) :: rest)
      else none
  | _, _ => none
termination_by fs fds => (sizeOf fds, sizeOf fs)
decreasing_by all_goals (simp_wf; try omega)
end

mutual
/-- Modelled from the spec: the Deserializer (§4.3) of the engine missing
from the provided sources.  `deserialize n s ctx` reads node `n` under
strategy `s`; `ctx` is the error-context path accumulated from the
document root.  A kind mismatch raises `typeMismatch` carrying the
current path. -/
def deserialize : Node → Strategy → List Seg → Except DeserErr Value
  | n, Strategy.primInt, ctx =>
      match n with
      | Node.num i => Except.ok (Value.vInt i)
      | _ => Except.error (DeserErr.typeMismatch ctx NodeKind.numberKind n.kind)
  | n, Strategy.primBool, ctx =>
      match n with
      | Node.boolean b => Except.ok (Value.vBool b)
      | _ => Except.error (DeserErr.typeMismatch ctx NodeKind.boolKind n.kind)
  | n, Strategy.text, ctx =>
      match n with
      | Node.str s => Except.ok (Value.vStr s)
      | _ => Except.error (DeserErr.typeMismatch ctx NodeKind.stringKind n.kind)
  | n, Strategy.enumeration, ctx =>
      match n with
      | Node.num i => Except.ok (Value.vEnum i)
      | _ => Except.error (DeserErr.typeMismatch ctx NodeKind.numberKind n.kind)
  | n, Strategy.nullable inner, ctx =>
      match n with
      | Node.null => Except.ok (Value.vOpt none)
      | _ => do
          let v ← deserialize n inner ctx
          pure (Value.vOpt (some v))
  | n, Strategy.seqContainer e, ctx =>
      match n with
      | Node.arr elems => do
          let vs ← deserializeElems elems e ctx 0
          pure (Value.vSeq vs)
      | _ => Except.error (DeserErr.typeMismatch ctx NodeKind.arrayKind n.kind)
  | n, Strategy.assocContainer vs, ctx =>
      match n with
      | Node.obj ms => do
          let es ← deserializeEntries ms vs ctx
          pure (Value.vMap es)
      | _ => Except.error (DeserErr.typeMismatch ctx NodeKind.objectKind n.kind)
  | n, Strategy.reflectiveObject fds, ctx =>
      match n with
      | Node.obj ms => do
          let fs ← deserializeFields ms fds ctx
          pure (Value.vObj fs)
      | _ => Except.error (DeserErr.typeMismatch ctx NodeKind.objectKind n.kind)
termination_by n s ctx => (sizeOf s, sizeOf n)
decreasing_by all_goals (simp_wf; try omega)

/-- Deserialize the children of an Array node in order, pushing the path
segment `[i]` before recursing into the child at index `i`.  A child
failure aborts the whole container, propagating the error. -/
def deserializeElems : List Node → Strategy → List Seg → Nat → Except DeserErr (List Value)
  | [], _, _, _ => Except.ok []
  | n :: ns, e, ctx, i => do
      let v ← deserialize n e (ctx ++ [Seg.index i])
      let rest ← deserializeElems ns e ctx (i + 1)
      pure (v :: rest)
termination_by ns e ctx i => (sizeOf e, sizeOf ns)
decreasing_by all_goals (simp_wf; try omega)

/-- Deserialize the members of an Object node into an associative
container, pushing the member key as path segment before recursing. -/
def deserializeEntries : List (String × Node) → Strategy → List Seg → Except DeserErr (List (String × Value))
  | [], _, _ => Except.ok []
  | (k, n) :: ms, vs, ctx => do
      let v ← deserialize n vs (ctx ++ [Seg.fieldName k])
      let rest ← deserializeEntries ms vs ctx
      pure ((k, v) :: rest)
termination_by ms vs ctx => (sizeOf vs, sizeOf ms)
decreasing_by all_goals (simp_wf; try omega)

/-- Deserialize a reflective object's fields from the member list `ms`:
const fields are skipped (keep their default-constructed value); a
missing member is not an error (the field keeps its default); a present
member is deserialized under the field's strategy with the field name
pushed on the path.  Members of `ms` not named by any descriptor are
ignored. -/
def deserializeFields (ms : List (String × Node)) : List FieldD → List Seg → Except DeserErr (List (String × Value))
  | [], _ => Except.ok []
  | FieldD.mk name isC st df :: fds, ctx =>
      if isC then do
        let rest ← deserializeFields ms fds ctx
        pure ((name, df) :: rest)
      else
        match ms.lookup name with
        | none => do
            let rest ← deserializeFields ms fds ctx
            pure ((name, df) :: rest)
        | some n => do
            let v ← deserialize n st (ctx ++ [Seg.fieldName name])
            let rest ← deserializeFields ms fds ctx
            pure ((name, v) :: rest)
termination_by fds ctx => (sizeOf fds, sizeOf ms)
decreasing_by all_goals (simp_wf; try omega)
end

mutual
/-- Whether a value inhabits the value domain of a strategy (the shape
the C++ static type system guarantees for a field of that type). -/
def wellTyped : Value → Strategy → Bool
  | v, Strategy.primInt =>
      match v with
      | Value.vInt _ => true
      | _ => false
  | v, Strategy.primBool =>
      match v with
      | Value.vBool _ => true
      | _ => false
  | v, Strategy.text =>
      match v with
      | Value.vStr _ => true
      | _ => false
  | v, Strategy.enumeration =>
      match v with
      | Value.vEnum _ => true
      | _ => false
  | v, Strategy.nullable inner =>
      match v with
      | Value.vOpt none => true
      | Value.vOpt (some w) => wellTyped w inner
      | _ => false
  | v, Strategy.seqContainer e =>
      match v with
      | Value.vSeq xs => wellTypedList xs e
      | _ => false
  | v, Strategy.assocContainer vs =>
      match v with
      | Value.vMap es => wellTypedEntries es vs
      | _ => false
  | v, Strategy.reflectiveObject fds =>
      match v with
      | Value.vObj fs => wellTypedFields fs fds
      | _ => false
termination_by v s => (sizeOf s, sizeOf v)
decreasing_by all_goals (simp_wf; try omega)

/-- All elements of a sequence container are well typed. -/
def wellTypedList : List Value → Strategy → Bool
  | [], _ => true
  | x :: xs, e => wellTyped x e && wellTypedList xs e
termination_by xs e => (sizeOf e, sizeOf xs)
decreasing_by all_goals (simp_wf; try omega)

/-- All entries of an associative container are well typed. -/
def wellTypedEntries : List (String × Value) → Strategy → Bool
  | [], _ => true
  | (_, v) :: es, vs => wellTyped v vs && wellTypedEntries es vs
termination_by es vs => (sizeOf vs, sizeOf es)
decreasing_by all_goals (simp_wf; try omega)

/-- The fields of an object value align with the field descriptors of
its type: same names in the same order, each value well typed under the
field's strategy. -/
def wellTypedFields : List (String × Value) → List FieldD → Bool
  | [], [] => true
  | (n, v) :: fs, FieldD.mk name _ st _ :: fds =>
      (n == name) && wellTyped v st && wellTypedFields fs fds
  | _, _ => false
termination_by fs fds => (sizeOf fds, sizeOf fs)
decreasing_by all_goals (simp_wf; try omega)
end

/-- Whether a value is an absent nullable reference. -/
def isAbsent : Value → Bool
  | Value.vOpt none => true
  | _ => false

mutual
/-- A value is robust when no present nullable reference inside it
directly holds an absent nullable reference.  For such a nested value
the serializer emits `null` for the present outer reference, which the
deserializer reads back as the absent outer reference. -/
def robust : Value → Bool
  | Value.vInt _ => true
  | Value.vBool _ => true
  | Value.vStr _ => true
  | Value.vEnum _ => true
  | Value.vOpt none => true
  | Value.vOpt (some w) => !isAbsent w && robust w
  | Value.vSeq xs => robustList xs
  | Value.vMap es => robustPairs es
  | Value.vObj fs => robustPairs fs
termination_by v => sizeOf v
decreasing_by all_goals (simp_wf; try omega)

/-- All elements of a list are robust. -/
def robustList : List Value → Bool
  | [] => true
  | x :: xs => robust x && robustList xs
termination_by xs => sizeOf xs
decreasing_by all_goals (simp_wf; try omega)

/-- All values of a (name, value) list are robust. -/
def robustPairs : List (String × Value) → Bool
  | [] => true
  | (_, v) :: es => robust v && robustPairs es
termination_by es => sizeOf es
decreasing_by all_goals (simp_wf; try omega)
end

mutual
/-- Replace the value of every const field (at any depth) by the field's
default-constructed value: the portion of a value that a serialize /
deserialize round trip restores by assignment. -/
def scrub : Value → Strategy → Value
  | v, Strategy.primInt => v
  | v, Strategy.primBool => v
  | v, Strategy.text => v
  | v, Strategy.enumeration => v
  | v, Strategy.nullable inner =>
      match v with
      | Value.vOpt (some w) => Value.vOpt (some (scrub w inner))
      | _ => v
  | v, Strategy.seqContainer e =>
      match v with
      | Value.vSeq xs => Value.vSeq (scrubList xs e)
      | _ => v
  | v, Strategy.assocContainer vs =>
      match v with
      | Value.vMap es => Value.vMap (scrubEntries es vs)
      | _ => v
  | v, Strategy.reflectiveObject fds =>
      match v with
      | Value.vObj fs => Value.vObj (scrubFields fs fds)
      | _ => v
termination_by v s => (sizeOf s, sizeOf v)
decreasing_by all_goals (simp_wf; try omega)

/-- Scrub every element of a sequence container. -/
def scrubList : List Value → Strategy → List Value
  | [], _ => []
  | x :: xs, e => scrub x e :: scrubList xs e
termination_by xs e => (sizeOf e, sizeOf xs)
decreasing_by all_goals (simp_wf; try omega)

/-- Scrub every value of an associative container. -/
def scrubEntries : List (String × Value) → Strategy → List (String × Value)
  | [], _ => []
  | (k, v) :: es, vs => (k, scrub v vs) :: scrubEntries es vs
termination_by es vs => (sizeOf vs, sizeOf es)
decreasing_by all_goals (simp_wf; try omega)

/-- Scrub an object's fields: a const field reverts to its default, a
mutable field is scrubbed recursively. -/
def scrubFields : List (String × Value) → List FieldD → List (String × Value)
  | [], _ => []
  | fs, [] => fs
  | (n, v) :: fs, FieldD.mk _ isC st df :: fds =>
      (n, if isC then df else scrub v st) :: scrubFields fs fds
termination_by fs fds => (sizeOf fds, sizeOf fs)
decreasing_by all_goals (simp_wf; try omega)
end

mutual
/-- Field-by-field equality of two values of the same strategy, with
const fields excluded from the comparison. -/
def eqModConst : Strategy → Value → Value → Bool
  | Strategy.primInt, Value.vInt a, Value.vInt b => a == b
  | Strategy.primBool, Value.vBool a, Value.vBool b => a == b
  | Strategy.text, Value.vStr a, Value.vStr b => a == b
  | Strategy.enumeration, Value.vEnum a, Value.vEnum b => a == b
  | Strategy.nullable _, Value.vOpt none, Value.vOpt none => true
  | Strategy.nullable inner, Value.vOpt (some a), Value.vOpt (some b) => eqModConst inner a b
  | Strategy.seqContainer e, Value.vSeq xs, Value.vSeq ys => eqListModConst e xs ys
  | Strategy.assocContainer vs, Value.vMap es, Value.vMap gs => eqEntriesModConst vs es gs
  | Strategy.reflectiveObject fds, Value.vObj fs, Value.vObj gs => eqFieldsModConst fds fs gs
  | _, _, _ => false
termination_by s a b => (sizeOf s, sizeOf a)
decreasing_by all_goals (simp_wf; try omega)

/-- Element-wise `eqModConst` on sequence containers. -/
def eqListModConst : Strategy → List Value → List Value → Bool
  | _, [], [] => true
  | e, x :: xs, y :: ys => eqModConst e x y && eqListModConst e xs ys
  | _, _, _ => false
termination_by e xs ys => (sizeOf e, sizeOf xs)
decreasing_by all_goals (simp_wf; try omega)

/-- Entry-wise `eqModConst` on associative containers. -/
def eqEntriesModConst : Strategy → List (String × Value) → List (String × Value) → Bool
  | _, [], [] => true
  | vs, (k1, v1) :: es, (k2, v2) :: gs =>
      (k1 == k2) && eqModConst vs v1 v2 && eqEntriesModConst vs es gs
  | _, _, _ => false
termination_by vs es gs => (sizeOf vs, sizeOf es)
decreasing_by all_goals (simp_wf; try omega)

/-- Field-wise `eqModConst` on reflective objects: names must agree with
the descriptors; a const field is excluded from the comparison. -/
def eqFieldsModConst : List FieldD → List (String × Value) → List (String × Value) → Bool
  | [], [], [] => true
  | FieldD.mk name isC st _ :: fds, (n1, v1) :: fs, (n2, v2) :: gs =>
      (n1 == name) && (n2 == name) && (isC || eqModConst st v1 v2) && eqFieldsModConst fds fs gs
  | _, _, _ => false
termination_by fds fs gs => (sizeOf fds, sizeOf fs)
decreasing_by all_goals (simp_wf; try omega)
end

/-- A list of field names with no duplicates. -/
def distinctNames : List String → Bool
  | [] => true
  | n :: ns => !ns.contains n && distinctNames ns

mutual
/-- The spec assumes uniqueness of field names within every flattened
field list; `uniqNames` states that assumption for a strategy and all
strategies nested in it. -/
def uniqNames : Strategy → Bool
  | Strategy.primInt => true
  | Strategy.primBool => true
  | Strategy.text => true
  | Strategy.enumeration => true
  | Strategy.nullable inner => uniqNames inner
  | Strategy.seqContainer e => uniqNames e
  | Strategy.assocContainer vs => uniqNames vs
  | Strategy.reflectiveObject fds => distinctNames (fds.map FieldD.name) && uniqNamesFields fds
termination_by s => sizeOf s
decreasing_by all_goals (simp_wf; try omega)

/-- `uniqNames` holds of every field's strategy. -/
def uniqNamesFields : List FieldD → Bool
  | [] => true
  | FieldD.mk _ _ st _ :: fds => uniqNames st && uniqNamesFields fds
termination_by fds => sizeOf fds
decreasing_by all_goals (simp_wf; try omega)
end

/-- Top-level entry point `toJson` (spec §6): serialize a value under a
strategy. -/
def toJson (v : Value) (s : Strategy) : Option Node :=
  serialize v s

/-- Top-level entry point `fromJson` (spec §6): deserialize a node under
a strategy, starting with the empty error-context path. -/
def fromJson (n : Node) (s : Strategy) : Except DeserErr Value :=
  deserialize n s []

/-- A C++ class as the code generator sees it: its name, whether it is
reflective (derives from `JSONSerializable`), its list of public base
classes in declaration order (the `JSONSerializable<T>` marker base is
omitted, it contributes no fields), and its own fields in declaration
order. -/
inductive CClass where
  | mk (cname : String) (isRefl : Bool) (bases : List CClass) (ownFields : List FieldD)

/-- The name of a class. -/
def CClass.cname : CClass → String
  | CClass.mk n _ _ _ => n

/-- Whether a class is reflective. -/
def CClass.isRefl : CClass → Bool
  | CClass.mk _ r _ _ => r

/-- The base classes of a class. -/
def CClass.bases : CClass → List CClass
  | CClass.mk _ _ bs _ => bs

/-- The own (non-inherited) fields of a class. -/
def CClass.ownFields : CClass → List FieldD
  | CClass.mk _ _ _ fs => fs

mutual
/-- Modelled from the spec: the inheritance-flattening rule (§3) of the
type-descriptor supplier missing from the provided sources.  Collect the
fields of a class — recursively the fields of its bases in base-to-derived
declaration order, then its own fields — threading the set of already
visited class names so that a class reachable more than once contributes
its fields only once (first occurrence wins); a non-reflective class
contributes no fields. -/
def collect : List String → CClass → List String × List FieldD
  | visited, CClass.mk nm isR bs own =>
      if visited.contains nm || !isR then (visited, [])
      else
        let res := collectBases (nm :: visited) bs
        (res.1, res.2 ++ own)

/-- Collect the fields of a list of base classes in declaration order,
threading the visited set left to right. -/
def collectBases : List String → List CClass → List String × List FieldD
  | visited, [] => (visited, [])
  | visited, b :: bs =>
      let r1 := collect visited b
      let r2 := collectBases r1.1 bs
      (r2.1, r1.2 ++ r2.2)
end

/-- The flattened field list of a class: every public reflective
ancestor's fields in base-to-derived order followed by the class's own
fields, each ancestor contributing once. -/
def flatten (c : CClass) : List FieldD :=
  (collect [] c).2

/-- `TestStruct` from `lib/tests/structs.h`: fields `someInt = 0`,
`someString = "foo"`, `yetAnotherString = "bar"`. -/
def testStructC : CClass :=
  CClass.mk "TestStruct" true []
    [FieldD.mk "someInt" false Strategy.primInt (Value.vInt 0),
     FieldD.mk "someString" false Strategy.text (Value.vStr "foo"),
     FieldD.mk "yetAnotherString" false Strategy.text (Value.vStr "bar")]

/-- `AnotherTestStruct` from `lib/tests/structs.h`: field
`arrayOfStrings = {"a", "b", "cd"}`. -/
def anotherTestStructC : CClass :=
  CClass.mk "AnotherTestStruct" true []
    [FieldD.mk "arrayOfStrings" false (Strategy.seqContainer Strategy.text)
      (Value.vSeq [Value.vStr "a", Value.vStr "b", Value.vStr "cd"])]

/-- `NonSerializable` from `lib/tests/structs.h`: not reflective, its
field `ignored = 25` must not be picked up through inheritance. -/
def nonSerializableC : CClass :=
  CClass.mk "NonSerializable" false []
    [FieldD.mk "ignored" false Strategy.primInt (Value.vInt 25)]

/-- `DerivedTestStruct` from `lib/tests/structs.h`: base `TestStruct`,
own field `someBool = true`. -/
def derivedTestStructC : CClass :=
  CClass.mk "DerivedTestStruct" true [testStructC]
    [FieldD.mk "someBool" false Strategy.primBool (Value.vBool true)]

/-- `MultipleDerivedTestStruct` from `lib/tests/structs.h`: bases
`TestStruct`, `AnotherTestStruct`, `NonSerializable`; own field
`someBool = false`. -/
def multipleDerivedTestStructC : CClass :=
  CClass.mk "MultipleDerivedTestStruct" true
    [testStructC, anotherTestStructC, nonSerializableC]
    [FieldD.mk "someBool" false Strategy.primBool (Value.vBool false)]

/-- `Person` from `generator/tests/some_structs.h`: reflective, fields
`age` and `alive` (no base fields). -/
def personC : CClass :=
  CClass.mk "Person" true []
    [FieldD.mk "age" false Strategy.primInt (Value.vInt 0),
     FieldD.mk "alive" false Strategy.primBool (Value.vBool false)]

/-- A synthetic diamond: base class `A{x}` reached through both `B1{y}`
and `B2{z}`, checking that a type reachable twice contributes its fields
only once (first occurrence wins). -/
def diamondBaseC : CClass :=
  CClass.mk "A" true [] [FieldD.mk "x" false Strategy.primInt (Value.vInt 0)]

/-- First intermediate class of the diamond. -/
def diamondLeftC : CClass :=
  CClass.mk "B1" true [diamondBaseC] [FieldD.mk "y" false Strategy.primInt (Value.vInt 0)]

/-- Second intermediate class of the diamond. -/
def diamondRightC : CClass :=
  CClass.mk "B2" true [diamondBaseC] [FieldD.mk "z" false Strategy.primInt (Value.vInt 0)]

/-- Most-derived class of the diamond. -/
def diamondTopC : CClass :=
  CClass.mk "D" true [diamondLeftC, diamondRightC]
    [FieldD.mk "w" false Strategy.primBool (Value.vBool false)]

/-- A fragment of the C++ type grammar relevant to dispatch resolution:
primitives, `std::string`, `const char *`, enumerations, `std::vector`
(iteration and `emplace_back`), `std::forward_list` (iteration only, no
`emplace_back`), and smart pointers. -/
inductive CppType where
  | tInt
  | tBool
  | tString
  | constCharPtr
  | tEnum
  | vectorOf (t : CppType)
  | forwardListOf (t : CppType)
  | uniquePtrOf (t : CppType)

/-- Modelled from the spec: the Dispatch Resolver (§4.1) for the
serialization direction, missing from the provided sources.  Serializing
a sequence container requires only iteration, so `std::forward_list`
resolves like `std::vector`; `const char *` serializes as a string. -/
def resolveSer : CppType → Option Strategy
  | CppType.tInt => some Strategy.primInt
  | CppType.tBool => some Strategy.primBool
  | CppType.tString => some Strategy.text
  | CppType.constCharPtr => some Strategy.text
  | CppType.tEnum => some Strategy.enumeration
  | CppType.vectorOf t => Option.map Strategy.seqContainer (resolveSer t)
  | CppType.forwardListOf t => Option.map Strategy.seqContainer (resolveSer t)
  | CppType.uniquePtrOf t => Option.map Strategy.nullable (resolveSer t)

/-- Modelled from the spec: the Dispatch Resolver (§4.1) for the
deserialization direction, missing from the provided sources.
Deserializing a sequence container requires `emplace_back`, so
`std::forward_list` does not resolve; `const char *` is excluded from
deserialization (the engine would have to allocate memory the caller
must free).  An unresolved type is a registration-time condition, not a
runtime error. -/
def resolveDeser : CppType → Option Strategy
  | CppType.tInt => some Strategy.primInt
  | CppType.tBool => some Strategy.primBool
  | CppType.tString => some Strategy.text
  | CppType.constCharPtr => none
  | CppType.tEnum => some Strategy.enumeration
  | CppType.vectorOf t => Option.map Strategy.seqContainer (resolveDeser t)
  | CppType.forwardListOf _ => none
  | CppType.uniquePtrOf t => Option.map Strategy.nullable (resolveDeser t)

/-- Modelled from the spec: the Boost.Hana reflector considers only the
fields declared with `BOOST_HANA_DEFINE_STRUCT` — inherited members are
not considered (README, Boost.Hana disadvantages). -/
def hanaFields (c : CClass) : List FieldD :=
  c.ownFields

mutual
/-- Modelled from the spec: the Boost.Hana based deserializer, for which
no context information for errors like type-mismatch is available
(README, Boost.Hana disadvantages).  Identical traversal to
`deserialize`, but no path is threaded: every error carries the empty
path. -/
def hanaDeserialize : Node → Strategy → Except DeserErr Value
  | n, Strategy.primInt =>
      match n with
      | Node.num i => Except.ok (Value.vInt i)
      | _ => Except.error (DeserErr.typeMismatch [] NodeKind.numberKind n.kind)
  | n, Strategy.primBool =>
      match n with
      | Node.boolean b => Except.ok (Value.vBool b)
      | _ => Except.error (DeserErr.typeMismatch [] NodeKind.boolKind n.kind)
  | n, Strategy.text =>
      match n with
      | Node.str s => Except.ok (Value.vStr s)
      | _ => Except.error (DeserErr.typeMismatch [] NodeKind.stringKind n.kind)
  | n, Strategy.enumeration =>
      match n with
      | Node.num i => Except.ok (Value.vEnum i)
      | _ => Except.error (DeserErr.typeMismatch [] NodeKind.numberKind n.kind)
  | n, Strategy.nullable inner =>
      match n with
      | Node.null => Except.ok (Value.vOpt none)
      | _ => do
          let v ← hanaDeserialize n inner
          pure (Value.vOpt (some v))
  | n, Strategy.seqContainer e =>
      match n with
      | Node.arr elems => do
          let vs ← hanaDeserializeElems elems e
          pure (Value.vSeq vs)
      | _ => Except.error (DeserErr.typeMismatch [] NodeKind.arrayKind n.kind)
  | n, Strategy.assocContainer vs =>
      match n with
      | Node.obj ms => do
          let es ← hanaDeserializeEntries ms vs
          pure (Value.vMap es)
      | _ => Except.error (DeserErr.typeMismatch [] NodeKind.objectKind n.kind)
  | n, Strategy.reflectiveObject fds =>
      match n with
      | Node.obj ms => do
          let fs ← hanaDeserializeFields ms fds
          pure (Value.vObj fs)
      | _ => Except.error (DeserErr.typeMismatch [] NodeKind.objectKind n.kind)
termination_by n s => (sizeOf s, sizeOf n)
decreasing_by all_goals (simp_wf; try omega)

/-- Array children under the Boost.Hana reflector: no index segment is
recorded. -/
def hanaDeserializeElems : List Node → Strategy → Except DeserErr (List Value)
  | [], _ => Except.ok []
  | n :: ns, e => do
      let v ← hanaDeserialize n e
      let rest ← hanaDeserializeElems ns e
      pure (v :: rest)
termination_by ns e => (sizeOf e, sizeOf ns)
decreasing_by all_goals (simp_wf; try omega)

/-- Object members under the Boost.Hana reflector: no key segment is
recorded. -/
def hanaDeserializeEntries : List (String × Node) → Strategy → Except DeserErr (List (String × Value))
  | [], _ => Except.ok []
  | (k, n) :: ms, vs => do
      let v ← hanaDeserialize n vs
      let rest ← hanaDeserializeEntries ms vs
      pure ((k, v) :: rest)
termination_by ms vs => (sizeOf vs, sizeOf ms)
decreasing_by all_goals (simp_wf; try omega)

/-- Reflective-object fields under the Boost.Hana reflector: same
lookup and default rules, no field-name segment recorded. -/
def hanaDeserializeFields (ms : List (String × Node)) : List FieldD → Except DeserErr (List (String × Value))
  | [] => Except.ok []
  | FieldD.mk name isC st df :: fds =>
      if isC then do
        let rest ← hanaDeserializeFields ms fds
        pure ((name, df) :: rest)
      else
        match ms.lookup name with
        | none => do
            let rest ← hanaDeserializeFields ms fds
            pure ((name, df) :: rest)
        | some n => do
            let v ← hanaDeserialize n st
            let rest ← hanaDeserializeFields ms fds
            pure ((name, v) :: rest)
termination_by fds => (sizeOf fds, sizeOf ms)
decreasing_by all_goals (simp_wf; try omega)
end

/-- The strategy of `TestStruct` (its flattened descriptor list). -/
def testStructS : Strategy :=
  Strategy.reflectiveObject (flatten testStructC)

/-- A reflective type with a single doubly-nullable field `p`, such as a
struct holding a `std::unique_ptr` to a `std::unique_ptr` to an `int`. -/
def nestedNullableS : Strategy :=
  Strategy.reflectiveObject
    [FieldD.mk "p" false (Strategy.nullable (Strategy.nullable Strategy.primInt))
      (Value.vOpt none)]

/-- A value of the doubly-nullable type whose outer reference is present
and whose inner reference is absent. -/
def nestedNullableV : Value :=
  Value.vObj [("p", Value.vOpt (some (Value.vOpt none)))]

/-- The strategy of a type with fields `number = 0` and `text = "foo"`
(the missing-member-tolerance example of the spec). -/
def testObjectS : Strategy :=
  Strategy.reflectiveObject
    [FieldD.mk "number" false Strategy.primInt (Value.vInt 0),
     FieldD.mk "text" false Strategy.text (Value.vStr "foo")]

/-- The strategy of the README's `NestingArray`: a `name` string field
and a `testObjects` field holding an array of objects with an integer
field `number`. -/
def nestingArrayS : Strategy :=
  Strategy.reflectiveObject
    [FieldD.mk "name" false Strategy.text (Value.vStr ""),
     FieldD.mk "testObjects" false
       (Strategy.seqContainer (Strategy.reflectiveObject
         [FieldD.mk "number" false Strategy.primInt (Value.vInt 0)]))
       (Value.vSeq [])]

/-! ## Lemmas -/

/-- The member names produced by serializing a reflective object are
exactly the field names of its descriptor list, in order. -/
theorem serializeFields_names (fs : List (String × Value)) (fds : List FieldD)
    (ms : List (String × Node)) (h : serializeFields fs fds = some ms) :
    ms.map Prod.fst = fds.map FieldD.name := by
  induction fds generalizing fs ms with
  | nil =>
      cases fs with
      | nil => simp [serializeFields] at h; subst h; simp
      | cons f fs => cases f; simp [serializeFields] at h
  | cons fd fds ih =>
      cases fd with
      | mk name isC st df =>
          cases fs with
          | nil => simp [serializeFields] at h
          | cons f fs =>
              cases f with
              | mk n v =>
                  by_cases hn : n = name
                  · subst hn
                    simp only [serializeFields, if_pos rfl] at h
                    cases hnd : serialize v st with
                    | none => rw [hnd] at h; simp at h
                    | some nd =>
                        rw [hnd] at h
                        cases hrest : serializeFields fs fds with
                        | none => rw [hrest] at h; simp at h
                        | some rest =>
                            rw [hrest] at h
                            simp at h
                            subst h
                            simpa [FieldD.name] using ih fs rest hrest
                  · simp [serializeFields, hn] at h

mutual
/-- Serialization is total on well-typed values. -/
theorem serialize_total (s : Strategy) (v : Value) (hw : wellTyped v s = true) :
    ∃ n, serialize v s = some n := by
  cases s with
  | primInt =>
      cases v
      case vInt i => exact ⟨Node.num i, by simp [serialize]⟩
      all_goals simp [wellTyped] at hw
  | primBool =>
      cases v
      case vBool b => exact ⟨Node.boolean b, by simp [serialize]⟩
      all_goals simp [wellTyped] at hw
  | text =>
      cases v
      case vStr t => exact ⟨Node.str t, by simp [serialize]⟩
      all_goals simp [wellTyped] at hw
  | enumeration =>
      cases v
      case vEnum i => exact ⟨Node.num i, by simp [serialize]⟩
      all_goals simp [wellTyped] at hw
  | nullable inner =>
      cases v
      case vOpt o =>
          cases o with
          | none => exact ⟨Node.null, by simp [serialize]⟩
          | some w =>
              have hw2 : wellTyped w inner = true := by simpa [wellTyped] using hw
              obtain ⟨n, hn⟩ := serialize_total inner w hw2
              exact ⟨n, by simp [serialize, hn]⟩
      all_goals simp [wellTyped] at hw
  | seqContainer e =>
      cases v
      case vSeq xs =>
          have hw2 : wellTypedList xs e = true := by simpa [wellTyped] using hw
          obtain ⟨ns, hns⟩ := serializeList_total e xs hw2
          exact ⟨Node.arr ns, by simp [serialize, hns]⟩
      all_goals simp [wellTyped] at hw
  | assocContainer vs =>
      cases v
      case vMap es =>
          have hw2 : wellTypedEntries es vs = true := by simpa [wellTyped] using hw
          obtain ⟨ms, hms⟩ := serializeEntries_total vs es hw2
          exact ⟨Node.obj ms, by simp [serialize, hms]⟩
      all_goals simp [wellTyped] at hw
  | reflectiveObject fds =>
      cases v
      case vObj fs =>
          have hw2 : wellTypedFields fs fds = true := by simpa [wellTyped] using hw
          obtain ⟨ms, hms⟩ := serializeFields_total fds fs hw2
          exact ⟨Node.obj ms, by simp [serialize, hms]⟩
      all_goals simp [wellTyped] at hw
  termination_by (sizeOf s, sizeOf v)
  decreasing_by all_goals (subst_vars; decreasing_tactic)

/-- Serialization of a sequence container's elements is total on
well-typed elements. -/
theorem serializeList_total (e : Strategy) (xs : List Value)
    (hw : wellTypedList xs e = true) : ∃ ns, serializeList xs e = some ns := by
  cases xs with
  | nil => exact ⟨[], by simp [serializeList]⟩
  | cons x xs =>
      rw [wellTypedList, Bool.and_eq_true] at hw
      obtain ⟨n, hn⟩ := serialize_total e x hw.1
      obtain ⟨ns, hns⟩ := serializeList_total e xs hw.2
      exact ⟨n :: ns, by simp [serializeList, hn, hns]⟩
  termination_by (sizeOf e, sizeOf xs)
  decreasing_by all_goals (subst_vars; decreasing_tactic)

/-- Serialization of an associative container's entries is total on
well-typed entries. -/
theorem serializeEntries_total (vs : Strategy) (es : List (String × Value))
    (hw : wellTypedEntries es vs = true) : ∃ ms, serializeEntries es vs = some ms := by
  cases es with
  | nil => exact ⟨[], by simp [serializeEntries]⟩
  | cons kv es =>
      cases kv with
      | mk k v =>
          rw [wellTypedEntries, Bool.and_eq_true] at hw
          obtain ⟨n, hn⟩ := serialize_total vs v hw.1
          obtain ⟨ms, hms⟩ := serializeEntries_total vs es hw.2
          exact ⟨(k, n) :: ms, by simp [serializeEntries, hn, hms]⟩
  termination_by (sizeOf vs, sizeOf es)
  decreasing_by all_goals (subst_vars; decreasing_tactic)

/-- Serialization of a reflective object's fields is total on aligned,
well-typed field values. -/
theorem serializeFields_total (fds : List FieldD) (fs : List (String × Value))
    (hw : wellTypedFields fs fds = true) : ∃ ms, serializeFields fs fds = some ms := by
  cases fds with
  | nil =>
      cases fs with
      | nil => exact ⟨[], by simp [serializeFields]⟩
      | cons f fs => cases f; simp [wellTypedFields] at hw
  | cons fd fds =>
      cases fd with
      | mk name isC st df =>
          cases fs with
          | nil => simp [wellTypedFields] at hw
          | cons f fs =>
              cases f with
              | mk n v =>
                  rw [wellTypedFields, Bool.and_eq_true, Bool.and_eq_true] at hw
                  obtain ⟨⟨hname, hv⟩, hrest⟩ := hw
                  have hn : n = name := by simpa using hname
                  obtain ⟨nd, hnd⟩ := serialize_total st v hv
                  obtain ⟨ms, hms⟩ := serializeFields_total fds fs hrest
                  exact ⟨(name, nd) :: ms, by simp [serializeFields, hn, hnd, hms]⟩
  termination_by (sizeOf fds, sizeOf fs)
  decreasing_by all_goals (subst_vars; decreasing_tactic)
end

/-- Only an absent nullable serializes to the `null` node: a well-typed
robust value that is not an absent nullable never serializes to `null`. -/
theorem serialize_ne_null (s : Strategy) (u : Value) (hw : wellTyped u s = true)
    (hr : robust u = true) (ha : isAbsent u = false) :
    serialize u s ≠ some Node.null := by
  cases s with
  | primInt => cases u <;> simp [serialize]
  | primBool => cases u <;> simp [serialize]
  | text => cases u <;> simp [serialize]
  | enumeration => cases u <;> simp [serialize]
  | nullable inner =>
      cases u
      case vOpt o =>
          cases o with
          | none => simp [isAbsent] at ha
          | some w =>
              have hw2 : wellTyped w inner = true := by simpa [wellTyped] using hw
              have hr2 : isAbsent w = false ∧ robust w = true := by
                simpa [robust, Bool.and_eq_true] using hr
              have := serialize_ne_null inner w hw2 hr2.2 hr2.1
              simpa [serialize] using this
      all_goals simp [serialize]
  | seqContainer e => cases u <;> simp [serialize]
  | assocContainer vs => cases u <;> simp [serialize]
  | reflectiveObject fds => cases u <;> simp [serialize]

/-- A member whose name no field descriptor bears is ignored by field
deserialization. -/
theorem deserializeFields_skip (ms : List (String × Node)) (nm : String) (nd : Node)
    (fds : List FieldD) (ctx : List Seg)
    (h : (fds.map FieldD.name).contains nm = false) :
    deserializeFields ((nm, nd) :: ms) fds ctx = deserializeFields ms fds ctx := by
  induction fds with
  | nil => simp [deserializeFields]
  | cons fd fds ih =>
      cases fd with
      | mk name isC st df =>
          rw [List.map_cons, List.contains_cons, Bool.or_eq_false_iff] at h
          have hne : (name == nm) = false := by
            have : ¬nm = FieldD.name (FieldD.mk name isC st df) := by
              simpa using h.1
            simp [FieldD.name] at this
            simp [Ne.symm this]
          simp [deserializeFields, List.lookup, hne, ih h.2]

mutual
/-- Round trip: deserializing the serialization of a well-typed robust
value yields the value with every const field reset to its default. -/
theorem roundTrip (s : Strategy) (v : Value) (n : Node) (ctx : List Seg)
    (hw : wellTyped v s = true) (hr : robust v = true) (hu : uniqNames s = true)
    (hs : serialize v s = some n) :
    deserialize n s ctx = Except.ok (scrub v s) := by
  cases s with
  | primInt =>
      cases v
      case vInt i =>
          simp [serialize] at hs
          subst hs
          simp [deserialize, scrub]
      all_goals simp [wellTyped] at hw
  | primBool =>
      cases v
      case vBool b =>
          simp [serialize] at hs
          subst hs
          simp [deserialize, scrub]
      all_goals simp [wellTyped] at hw
  | text =>
      cases v
      case vStr t =>
          simp [serialize] at hs
          subst hs
          simp [deserialize, scrub]
      all_goals simp [wellTyped] at hw
  | enumeration =>
      cases v
      case vEnum i =>
          simp [serialize] at hs
          subst hs
          simp [deserialize, scrub]
      all_goals simp [wellTyped] at hw
  | nullable inner =>
      cases v
      case vOpt o =>
          cases o with
          | none =>
              simp [serialize] at hs
              subst hs
              simp [deserialize, scrub]
          | some w =>
              have hw2 : wellTyped w inner = true := by simpa [wellTyped] using hw
              have hr2 : isAbsent w = false ∧ robust w = true := by
                simpa [robust, Bool.and_eq_true] using hr
              have hu2 : uniqNames inner = true := by simpa [uniqNames] using hu
              have hs2 : serialize w inner = some n := by simpa [serialize] using hs
              have hnn : n ≠ Node.null := by
                intro hEq
                exact serialize_ne_null inner w hw2 hr2.2 hr2.1 (hEq ▸ hs2)
              have hrec := roundTrip inner w n ctx hw2 hr2.2 hu2 hs2
              cases n with
              | null => exact absurd rfl hnn
              | obj ms => simp [deserialize, hrec, scrub]
              | arr xs => simp [deserialize, hrec, scrub]
              | str t => simp [deserialize, hrec, scrub]
              | num i => simp [deserialize, hrec, scrub]
              | boolean b => simp [deserialize, hrec, scrub]
      all_goals simp [wellTyped] at hw
  | seqContainer e =>
      cases v
      case vSeq xs =>
          have hw2 : wellTypedList xs e = true := by simpa [wellTyped] using hw
          have hr2 : robustList xs = true := by simpa [robust] using hr
          have hu2 : uniqNames e = true := by simpa [uniqNames] using hu
          simp only [serialize] at hs
          cases hns : serializeList xs e with
          | none => rw [hns] at hs; simp at hs
          | some ns =>
              rw [hns] at hs
              simp at hs
              subst hs
              have hrec := roundTripList e xs ns hw2 hr2 hu2 hns ctx 0
              simp [deserialize, hrec, scrub]
      all_goals simp [wellTyped] at hw
  | assocContainer vs =>
      cases v
      case vMap es =>
          have hw2 : wellTypedEntries es vs = true := by simpa [wellTyped] using hw
          have hr2 : robustPairs es = true := by simpa [robust] using hr
          have hu2 : uniqNames vs = true := by simpa [uniqNames] using hu
          simp only [serialize] at hs
          cases hms : serializeEntries es vs with
          | none => rw [hms] at hs; simp at hs
          | some ms =>
              rw [hms] at hs
              simp at hs
              subst hs
              have hrec := roundTripEntries vs es ms hw2 hr2 hu2 hms ctx
              simp [deserialize, hrec, scrub]
      all_goals simp [wellTyped] at hw
  | reflectiveObject fds =>
      cases v
      case vObj fs =>
          have hw2 : wellTypedFields fs fds = true := by simpa [wellTyped] using hw
          have hr2 : robustPairs fs = true := by simpa [robust] using hr
          have hu2 : distinctNames (fds.map FieldD.name) = true ∧ uniqNamesFields fds = true := by
            simpa [uniqNames, Bool.and_eq_true] using hu
          simp only [serialize] at hs
          cases hms : serializeFields fs fds with
          | none => rw [hms] at hs; simp at hs
          | some ms =>
              rw [hms] at hs
              simp at hs
              subst hs
              have hrec := roundTripFields fds fs ms hw2 hr2 hu2.1 hu2.2 hms ctx
              simp [deserialize, hrec, scrub]
      all_goals simp [wellTyped] at hw
  termination_by (sizeOf s, sizeOf v)
  decreasing_by all_goals (subst_vars; decreasing_tactic)

/-- Round trip for the elements of a sequence container, for any
context and starting index. -/
theorem roundTripList (e : Strategy) (xs : List Value) (ns : List Node)
    (hw : wellTypedList xs e = true) (hr : robustList xs = true)
    (hu : uniqNames e = true) (hs : serializeList xs e = some ns)
    (ctx : List Seg) (i : Nat) :
    deserializeElems ns e ctx i = Except.ok (scrubList xs e) := by
  cases xs with
  | nil =>
      simp [serializeList] at hs
      subst hs
      simp [deserializeElems, scrubList]
  | cons x xs =>
      rw [wellTypedList, Bool.and_eq_true] at hw
      rw [robustList, Bool.and_eq_true] at hr
      simp only [serializeList] at hs
      cases hn : serialize x e with
      | none => rw [hn] at hs; simp at hs
      | some n =>
          rw [hn] at hs
          cases hns : serializeList xs e with
          | none => rw [hns] at hs; simp at hs
          | some ns0 =>
              rw [hns] at hs
              simp at hs
              subst hs
              have h1 := roundTrip e x n (ctx ++ [Seg.index i]) hw.1 hr.1 hu hn
              have h2 := roundTripList e xs ns0 hw.2 hr.2 hu hns ctx (i + 1)
              simp [deserializeElems, h1, h2, scrubList]
              rfl
  termination_by (sizeOf e, sizeOf xs)
  decreasing_by all_goals (subst_vars; decreasing_tactic)

/-- Round trip for the entries of an associative container. -/
theorem roundTripEntries (vs : Strategy) (es : List (String × Value))
    (ms : List (String × Node))
    (hw : wellTypedEntries es vs = true) (hr : robustPairs es = true)
    (hu : uniqNames vs = true) (hs : serializeEntries es vs = some ms)
    (ctx : List Seg) :
    deserializeEntries ms vs ctx = Except.ok (scrubEntries es vs) := by
  cases es with
  | nil =>
      simp [serializeEntries] at hs
      subst hs
      simp [deserializeEntries, scrubEntries]
  | cons kv es =>
      cases kv with
      | mk k v =>
          rw [wellTypedEntries, Bool.and_eq_true] at hw
          rw [robustPairs, Bool.and_eq_true] at hr
          simp only [serializeEntries] at hs
          cases hn : serialize v vs with
          | none => rw [hn] at hs; simp at hs
          | some n =>
              rw [hn] at hs
              cases hms : serializeEntries es vs with
              | none => rw [hms] at hs; simp at hs
              | some ms0 =>
                  rw [hms] at hs
                  simp at hs
                  subst hs
                  have h1 := roundTrip vs v n (ctx ++ [Seg.fieldName k]) hw.1 hr.1 hu hn
                  have h2 := roundTripEntries vs es ms0 hw.2 hr.2 hu hms ctx
                  simp [deserializeEntries, h1, h2, scrubEntries]
                  rfl
  termination_by (sizeOf vs, sizeOf es)
  decreasing_by all_goals (subst_vars; decreasing_tactic)

/-- Round trip for the fields of a reflective object: every const field
comes back as its default, every mutable field as its scrubbed value. -/
theorem roundTripFields (fds : List FieldD) (fs : List (String × Value))
    (ms : List (String × Node))
    (hw : wellTypedFields fs fds = true) (hr : robustPairs fs = true)
    (hd : distinctNames (fds.map FieldD.name) = true)
    (hu : uniqNamesFields fds = true) (hs : serializeFields fs fds = some ms)
    (ctx : List Seg) :
    deserializeFields ms fds ctx = Except.ok (scrubFields fs fds) := by
  cases fds with
  | nil =>
      cases fs with
      | nil =>
          simp [serializeFields] at hs
          subst hs
          simp [deserializeFields, scrubFields]
      | cons f fs => cases f; simp [wellTypedFields] at hw
  | cons fd fds =>
      cases fd with
      | mk name isC st df =>
          cases fs with
          | nil => simp [wellTypedFields] at hw
          | cons f fs =>
              cases f with
              | mk n0 v =>
                  rw [wellTypedFields, Bool.and_eq_true, Bool.and_eq_true] at hw
                  obtain ⟨⟨hname, hv⟩, hwrest⟩ := hw
                  have hn0 : n0 = name := by simpa using hname
                  subst hn0
                  rw [robustPairs, Bool.and_eq_true] at hr
                  rw [List.map_cons, distinctNames, Bool.and_eq_true] at hd
                  have hdhead : ((fds.map FieldD.name).contains (FieldD.name (FieldD.mk n0 isC st df))) = false := by
                    simpa using hd.1
                  rw [uniqNamesFields, Bool.and_eq_true] at hu
                  simp only [serializeFields, if_pos rfl] at hs
                  cases hn : serialize v st with
                  | none => rw [hn] at hs; simp at hs
                  | some nd =>
                      rw [hn] at hs
                      cases hms : serializeFields fs fds with
                      | none => rw [hms] at hs; simp at hs
                      | some ms0 =>
                          rw [hms] at hs
                          simp at hs
                          subst hs
                          have hrest := roundTripFields fds fs ms0 hwrest hr.2 hd.2 hu.2 hms ctx
                          have hskip := deserializeFields_skip ms0 n0 nd fds ctx (by simpa [FieldD.name] using hdhead)
                          by_cases hc : isC = true
                          · subst hc
                            simp [deserializeFields, hskip, hrest, scrubFields]
                          · have hc0 : isC = false := by simpa using hc
                            subst hc0
                            have h1 := roundTrip st v nd (ctx ++ [Seg.fieldName n0]) hv hr.1 hu.1 hn
                            simp [deserializeFields, List.lookup, hskip, hrest, h1, scrubFields]
                            rfl
  termination_by (sizeOf fds, sizeOf fs)
  decreasing_by all_goals (subst_vars; decreasing_tactic)
end

mutual
/-- A well-typed value agrees with its scrubbed form on every non-const
field: scrubbing only touches const fields, which the comparison
excludes. -/
theorem eqModConst_scrub (s : Strategy) (v : Value) (hw : wellTyped v s = true) :
    eqModConst s v (scrub v s) = true := by
  cases s with
  | primInt =>
      cases v
      case vInt i => simp [scrub, eqModConst]
      all_goals simp [wellTyped] at hw
  | primBool =>
      cases v
      case vBool b => simp [scrub, eqModConst]
      all_goals simp [wellTyped] at hw
  | text =>
      cases v
      case vStr t => simp [scrub, eqModConst]
      all_goals simp [wellTyped] at hw
  | enumeration =>
      cases v
      case vEnum i => simp [scrub, eqModConst]
      all_goals simp [wellTyped] at hw
  | nullable inner =>
      cases v
      case vOpt o =>
          cases o with
          | none => simp [scrub, eqModConst]
          | some w =>
              have hw2 : wellTyped w inner = true := by simpa [wellTyped] using hw
              have := eqModConst_scrub inner w hw2
              simp [scrub, eqModConst, this]
      all_goals simp [wellTyped] at hw
  | seqContainer e =>
      cases v
      case vSeq xs =>
          have hw2 : wellTypedList xs e = true := by simpa [wellTyped] using hw
          have := eqListModConst_scrub e xs hw2
          simp [scrub, eqModConst, this]
      all_goals simp [wellTyped] at hw
  | assocContainer vs =>
      cases v
      case vMap es =>
          have hw2 : wellTypedEntries es vs = true := by simpa [wellTyped] using hw
          have := eqEntriesModConst_scrub vs es hw2
          simp [scrub, eqModConst, this]
      all_goals simp [wellTyped] at hw
  | reflectiveObject fds =>
      cases v
      case vObj fs =>
          have hw2 : wellTypedFields fs fds = true := by simpa [wellTyped] using hw
          have := eqFieldsModConst_scrub fds fs hw2
          simp [scrub, eqModConst, this]
      all_goals simp [wellTyped] at hw
  termination_by (sizeOf s, sizeOf v)
  decreasing_by all_goals (subst_vars; decreasing_tactic)

/-- Element-wise form of `eqModConst_scrub`. -/
theorem eqListModConst_scrub (e : Strategy) (xs : List Value)
    (hw : wellTypedList xs e = true) : eqListModConst e xs (scrubList xs e) = true := by
  cases xs with
  | nil => simp [scrubList, eqListModConst]
  | cons x xs =>
      rw [wellTypedList, Bool.and_eq_true] at hw
      have h1 := eqModConst_scrub e x hw.1
      have h2 := eqListModConst_scrub e xs hw.2
      simp [scrubList, eqListModConst, h1, h2]
  termination_by (sizeOf e, sizeOf xs)
  decreasing_by all_goals (subst_vars; decreasing_tactic)

/-- Entry-wise form of `eqModConst_scrub`. -/
theorem eqEntriesModConst_scrub (vs : Strategy) (es : List (String × Value))
    (hw : wellTypedEntries es vs = true) :
    eqEntriesModConst vs es (scrubEntries es vs) = true := by
  cases es with
  | nil => simp [scrubEntries, eqEntriesModConst]
  | cons kv es =>
      cases kv with
      | mk k v =>
          rw [wellTypedEntries, Bool.and_eq_true] at hw
          have h1 := eqModConst_scrub vs v hw.1
          have h2 := eqEntriesModConst_scrub vs es hw.2
          simp [scrubEntries, eqEntriesModConst, h1, h2]
  termination_by (sizeOf vs, sizeOf es)
  decreasing_by all_goals (subst_vars; decreasing_tactic)

/-- Field-wise form of `eqModConst_scrub`: const fields are excluded
from the comparison, so resetting them to defaults preserves it. -/
theorem eqFieldsModConst_scrub (fds : List FieldD) (fs : List (String × Value))
    (hw : wellTypedFields fs fds = true) :
    eqFieldsModConst fds fs (scrubFields fs fds) = true := by
  cases fds with
  | nil =>
      cases fs with
      | nil => simp [scrubFields, eqFieldsModConst]
      | cons f fs => cases f; simp [wellTypedFields] at hw
  | cons fd fds =>
      cases fd with
      | mk name isC st df =>
          cases fs with
          | nil => simp [wellTypedFields] at hw
          | cons f fs =>
              cases f with
              | mk n0 v =>
                  rw [wellTypedFields, Bool.and_eq_true, Bool.and_eq_true] at hw
                  obtain ⟨⟨hname, hv⟩, hwrest⟩ := hw
                  have hn0 : n0 = name := by simpa using hname
                  subst hn0
                  have hrest := eqFieldsModConst_scrub fds fs hwrest
                  by_cases hc : isC = true
                  · subst hc
                    simp [scrubFields, eqFieldsModConst, hrest]
                  · have hc0 : isC = false := by simpa using hc
                    subst hc0
                    have h1 := eqModConst_scrub st v hv
                    simp [scrubFields, eqFieldsModConst, h1, hrest]
  termination_by (sizeOf fds, sizeOf fs)
  decreasing_by all_goals (subst_vars; decreasing_tactic)
end

/-- Reduction of a monadic bind on a successful deserialization step. -/
theorem exceptOkBind {α β : Type} (a : α) (f : α → Except DeserErr β) :
    (Except.ok a >>= f) = f a :=
  rfl

/-- Reduction of a monadic bind on a failed deserialization step. -/
theorem exceptErrorBind {α β : Type} (e : DeserErr) (f : α → Except DeserErr β) :
    ((Except.error e : Except DeserErr α) >>= f) = Except.error e :=
  rfl

/-- Reduction of a functorial map on a successful deserialization step. -/
theorem exceptOkMap {α β : Type} (a : α) (f : α → β) :
    (f <$> (Except.ok a : Except DeserErr α)) = Except.ok (f a) :=
  rfl

/-- Reduction of a functorial map on a failed deserialization step. -/
theorem exceptErrorMap {α β : Type} (e : DeserErr) (f : α → β) :
    (f <$> (Except.error e : Except DeserErr α) : Except DeserErr β) = Except.error e :=
  rfl

/-- Unfolding of the deserializer at a nullable strategy on a non-null
node: recurse with the inner strategy and wrap the result as present. -/
theorem deserialize_nullable_ne_null (inner : Strategy) (n : Node) (ctx : List Seg)
    (hnn : n ≠ Node.null) :
    deserialize n (Strategy.nullable inner) ctx =
      ((fun v => Value.vOpt (some v)) <$> deserialize n inner ctx) := by
  cases n
  case null => exact absurd rfl hnn
  all_goals simp [deserialize]

mutual
/-- Error-context accumulation: a failure inside `deserialize n s ctx`
carries a path extending `ctx`. -/
theorem deserialize_path (s : Strategy) (n : Node) (ctx : List Seg) (er : DeserErr)
    (h : deserialize n s ctx = Except.error er) : ∃ r, er.path = ctx ++ r := by
  cases s with
  | primInt =>
      cases n
      case num i => simp [deserialize] at h
      all_goals (simp [deserialize] at h; exact ⟨[], by rw [← h]; simp [DeserErr.path]⟩)
  | primBool =>
      cases n
      case boolean b => simp [deserialize] at h
      all_goals (simp [deserialize] at h; exact ⟨[], by rw [← h]; simp [DeserErr.path]⟩)
  | text =>
      cases n
      case str t => simp [deserialize] at h
      all_goals (simp [deserialize] at h; exact ⟨[], by rw [← h]; simp [DeserErr.path]⟩)
  | enumeration =>
      cases n
      case num i => simp [deserialize] at h
      all_goals (simp [deserialize] at h; exact ⟨[], by rw [← h]; simp [DeserErr.path]⟩)
  | nullable inner =>
      by_cases hnn : n = Node.null
      · subst hnn; simp [deserialize] at h
      · rw [deserialize_nullable_ne_null inner n ctx hnn] at h
        cases hd : deserialize n inner ctx with
        | ok v => rw [hd, exceptOkMap] at h; simp at h
        | error e0 =>
            rw [hd, exceptErrorMap] at h
            simp at h
            exact h ▸ deserialize_path inner n ctx e0 hd
  | seqContainer e =>
      cases n
      case arr elems =>
          simp only [deserialize] at h
          cases hd : deserializeElems elems e ctx 0 with
          | ok vs => rw [hd, exceptOkBind] at h; simp [pure, Except.pure] at h
          | error e0 =>
              rw [hd, exceptErrorBind] at h
              simp at h
              exact h ▸ deserializeElems_path e elems ctx 0 e0 hd
      all_goals (simp [deserialize] at h; exact ⟨[], by rw [← h]; simp [DeserErr.path]⟩)
  | assocContainer vs =>
      cases n
      case obj ms =>
          simp only [deserialize] at h
          cases hd : deserializeEntries ms vs ctx with
          | ok es => rw [hd, exceptOkBind] at h; simp [pure, Except.pure] at h
          | error e0 =>
              rw [hd, exceptErrorBind] at h
              simp at h
              exact h ▸ deserializeEntries_path vs ms ctx e0 hd
      all_goals (simp [deserialize] at h; exact ⟨[], by rw [← h]; simp [DeserErr.path]⟩)
  | reflectiveObject fds =>
      cases n
      case obj ms =>
          simp only [deserialize] at h
          cases hd : deserializeFields ms fds ctx with
          | ok fs => rw [hd, exceptOkBind] at h; simp [pure, Except.pure] at h
          | error e0 =>
              rw [hd, exceptErrorBind] at h
              simp at h
              exact h ▸ deserializeFields_path fds ms ctx e0 hd
      all_goals (simp [deserialize] at h; exact ⟨[], by rw [← h]; simp [DeserErr.path]⟩)
  termination_by (sizeOf s, sizeOf n)
  decreasing_by all_goals (subst_vars; decreasing_tactic)

/-- Error-context accumulation through array elements: the failing
element contributes its index segment. -/
theorem deserializeElems_path (e : Strategy) (ns : List Node) (ctx : List Seg)
    (i : Nat) (er : DeserErr)
    (h : deserializeElems ns e ctx i = Except.error er) : ∃ r, er.path = ctx ++ r := by
  cases ns with
  | nil => simp [deserializeElems] at h
  | cons n0 ns =>
      simp only [deserializeElems] at h
      cases hd : deserialize n0 e (ctx ++ [Seg.index i]) with
      | error e0 =>
          rw [hd, exceptErrorBind] at h
          simp at h
          obtain ⟨r, hr⟩ := deserialize_path e n0 (ctx ++ [Seg.index i]) e0 hd
          exact ⟨Seg.index i :: r, by rw [← h, hr]; simp⟩
      | ok v =>
          rw [hd, exceptOkBind] at h
          cases hrest : deserializeElems ns e ctx (i + 1) with
          | error e0 =>
              rw [hrest, exceptErrorBind] at h
              simp at h
              exact h ▸ deserializeElems_path e ns ctx (i + 1) e0 hrest
          | ok vs => rw [hrest, exceptOkBind] at h; simp [pure, Except.pure] at h
  termination_by (sizeOf e, sizeOf ns)
  decreasing_by all_goals (subst_vars; decreasing_tactic)

/-- Error-context accumulation through object members of an associative
container: the failing member contributes its key segment. -/
theorem deserializeEntries_path (vs : Strategy) (ms : List (String × Node))
    (ctx : List Seg) (er : DeserErr)
    (h : deserializeEntries ms vs ctx = Except.error er) : ∃ r, er.path = ctx ++ r := by
  cases ms with
  | nil => simp [deserializeEntries] at h
  | cons kn ms =>
      cases kn with
      | mk k n0 =>
          simp only [deserializeEntries] at h
          cases hd : deserialize n0 vs (ctx ++ [Seg.fieldName k]) with
          | error e0 =>
              rw [hd, exceptErrorBind] at h
              simp at h
              obtain ⟨r, hr⟩ := deserialize_path vs n0 (ctx ++ [Seg.fieldName k]) e0 hd
              exact ⟨Seg.fieldName k :: r, by rw [← h, hr]; simp⟩
          | ok v =>
              rw [hd, exceptOkBind] at h
              cases hrest : deserializeEntries ms vs ctx with
              | error e0 =>
                  rw [hrest, exceptErrorBind] at h
                  simp at h
                  exact h ▸ deserializeEntries_path vs ms ctx e0 hrest
              | ok es => rw [hrest, exceptOkBind] at h; simp [pure, Except.pure] at h
  termination_by (sizeOf vs, sizeOf ms)
  decreasing_by all_goals (subst_vars; decreasing_tactic)

/-- Error-context accumulation through a reflective object's fields:
the failing field contributes its name segment. -/
theorem deserializeFields_path (fds : List FieldD) (ms : List (String × Node))
    (ctx : List Seg) (er : DeserErr)
    (h : deserializeFields ms fds ctx = Except.error er) : ∃ r, er.path = ctx ++ r := by
  cases fds with
  | nil => simp [deserializeFields] at h
  | cons fd fds =>
      cases fd with
      | mk name isC st df =>
          simp only [deserializeFields] at h
          by_cases hc : isC = true
          · rw [if_pos hc] at h
            cases hrest : deserializeFields ms fds ctx with
            | error e0 =>
                rw [hrest, exceptErrorBind] at h
                simp at h
                exact h ▸ deserializeFields_path fds ms ctx e0 hrest
            | ok fs => rw [hrest, exceptOkBind] at h; simp [pure, Except.pure] at h
          · rw [if_neg hc] at h
            cases hlk : ms.lookup name with
            | none =>
                simp only [hlk] at h
                cases hrest : deserializeFields ms fds ctx with
                | error e0 =>
                    rw [hrest, exceptErrorBind] at h
                    simp at h
                    exact h ▸ deserializeFields_path fds ms ctx e0 hrest
                | ok fs => rw [hrest, exceptOkBind] at h; simp [pure, Except.pure] at h
            | some n0 =>
                simp only [hlk] at h
                cases hd : deserialize n0 st (ctx ++ [Seg.fieldName name]) with
                | error e0 =>
                    rw [hd, exceptErrorBind] at h
                    simp at h
                    obtain ⟨r, hr⟩ := deserialize_path st n0 (ctx ++ [Seg.fieldName name]) e0 hd
                    exact ⟨Seg.fieldName name :: r, by rw [← h, hr]; simp⟩
                | ok v =>
                    rw [hd, exceptOkBind] at h
                    cases hrest : deserializeFields ms fds ctx with
                    | error e0 =>
                        rw [hrest, exceptErrorBind] at h
                        simp at h
                        exact h ▸ deserializeFields_path fds ms ctx e0 hrest
                    | ok fs => rw [hrest, exceptOkBind] at h; simp [pure, Except.pure] at h
  termination_by (sizeOf fds, sizeOf ms)
  decreasing_by all_goals (subst_vars; decreasing_tactic)
end

/-- Unfolding of the Boost.Hana deserializer at a nullable strategy on a
non-null node. -/
theorem hanaDeserialize_nullable_ne_null (inner : Strategy) (n : Node)
    (hnn : n ≠ Node.null) :
    hanaDeserialize n (Strategy.nullable inner) =
      ((fun v => Value.vOpt (some v)) <$> hanaDeserialize n inner) := by
  cases n
  case null => exact absurd rfl hnn
  all_goals simp [hanaDeserialize]

mutual
/-- Every failure of the Boost.Hana based deserializer carries the empty
path: no context information for type-mismatch errors. -/
theorem hanaDeserialize_path (s : Strategy) (n : Node) (er : DeserErr)
    (h : hanaDeserialize n s = Except.error er) : er.path = [] := by
  cases s with
  | primInt =>
      cases n
      case num i => simp [hanaDeserialize] at h
      all_goals (simp [hanaDeserialize] at h; rw [← h]; simp [DeserErr.path])
  | primBool =>
      cases n
      case boolean b => simp [hanaDeserialize] at h
      all_goals (simp [hanaDeserialize] at h; rw [← h]; simp [DeserErr.path])
  | text =>
      cases n
      case str t => simp [hanaDeserialize] at h
      all_goals (simp [hanaDeserialize] at h; rw [← h]; simp [DeserErr.path])
  | enumeration =>
      cases n
      case num i => simp [hanaDeserialize] at h
      all_goals (simp [hanaDeserialize] at h; rw [← h]; simp [DeserErr.path])
  | nullable inner =>
      by_cases hnn : n = Node.null
      · subst hnn; simp [hanaDeserialize] at h
      · rw [hanaDeserialize_nullable_ne_null inner n hnn] at h
        cases hd : hanaDeserialize n inner with
        | ok v => rw [hd, exceptOkMap] at h; simp at h
        | error e0 =>
            rw [hd, exceptErrorMap] at h
            simp at h
            exact h ▸ hanaDeserialize_path inner n e0 hd
  | seqContainer e =>
      cases n
      case arr elems =>
          simp only [hanaDeserialize] at h
          cases hd : hanaDeserializeElems elems e with
          | ok vs => rw [hd, exceptOkBind] at h; simp [pure, Except.pure] at h
          | error e0 =>
              rw [hd, exceptErrorBind] at h
              simp at h
              exact h ▸ hanaDeserializeElems_path e elems e0 hd
      all_goals (simp [hanaDeserialize] at h; rw [← h]; simp [DeserErr.path])
  | assocContainer vs =>
      cases n
      case obj ms =>
          simp only [hanaDeserialize] at h
          cases hd : hanaDeserializeEntries ms vs with
          | ok es => rw [hd, exceptOkBind] at h; simp [pure, Except.pure] at h
          | error e0 =>
              rw [hd, exceptErrorBind] at h
              simp at h
              exact h ▸ hanaDeserializeEntries_path vs ms e0 hd
      all_goals (simp [hanaDeserialize] at h; rw [← h]; simp [DeserErr.path])
  | reflectiveObject fds =>
      cases n
      case obj ms =>
          simp only [hanaDeserialize] at h
          cases hd : hanaDeserializeFields ms fds with
          | ok fs => rw [hd, exceptOkBind] at h; simp [pure, Except.pure] at h
          | error e0 =>
              rw [hd, exceptErrorBind] at h
              simp at h
              exact h ▸ hanaDeserializeFields_path fds ms e0 hd
      all_goals (simp [hanaDeserialize] at h; rw [← h]; simp [DeserErr.path])
  termination_by (sizeOf s, sizeOf n)
  decreasing_by all_goals (subst_vars; decreasing_tactic)

/-- Array elements under the Boost.Hana reflector fail with the empty
path. -/
theorem hanaDeserializeElems_path (e : Strategy) (ns : List Node) (er : DeserErr)
    (h : hanaDeserializeElems ns e = Except.error er) : er.path = [] := by
  cases ns with
  | nil => simp [hanaDeserializeElems] at h
  | cons n0 ns =>
      simp only [hanaDeserializeElems] at h
      cases hd : hanaDeserialize n0 e with
      | error e0 =>
          rw [hd, exceptErrorBind] at h
          simp at h
          exact h ▸ hanaDeserialize_path e n0 e0 hd
      | ok v =>
          rw [hd, exceptOkBind] at h
          cases hrest : hanaDeserializeElems ns e with
          | error e0 =>
              rw [hrest, exceptErrorBind] at h
              simp at h
              exact h ▸ hanaDeserializeElems_path e ns e0 hrest
          | ok vs => rw [hrest, exceptOkBind] at h; simp [pure, Except.pure] at h
  termination_by (sizeOf e, sizeOf ns)
  decreasing_by all_goals (subst_vars; decreasing_tactic)

/-- Object members under the Boost.Hana reflector fail with the empty
path. -/
theorem hanaDeserializeEntries_path (vs : Strategy) (ms : List (String × Node))
    (er : DeserErr) (h : hanaDeserializeEntries ms vs = Except.error er) :
    er.path = [] := by
  cases ms with
  | nil => simp [hanaDeserializeEntries] at h
  | cons kn ms =>
      cases kn with
      | mk k n0 =>
          simp only [hanaDeserializeEntries] at h
          cases hd : hanaDeserialize n0 vs with
          | error e0 =>
              rw [hd, exceptErrorBind] at h
              simp at h
              exact h ▸ hanaDeserialize_path vs n0 e0 hd
          | ok v =>
              rw [hd, exceptOkBind] at h
              cases hrest : hanaDeserializeEntries ms vs with
              | error e0 =>
                  rw [hrest, exceptErrorBind] at h
                  simp at h
                  exact h ▸ hanaDeserializeEntries_path vs ms e0 hrest
              | ok es => rw [hrest, exceptOkBind] at h; simp [pure, Except.pure] at h
  termination_by (sizeOf vs, sizeOf ms)
  decreasing_by all_goals (subst_vars; decreasing_tactic)

/-- Reflective-object fields under the Boost.Hana reflector fail with
the empty path. -/
theorem hanaDeserializeFields_path (fds : List FieldD) (ms : List (String × Node))
    (er : DeserErr) (h : hanaDeserializeFields ms fds = Except.error er) :
    er.path = [] := by
  cases fds with
  | nil => simp [hanaDeserializeFields] at h
  | cons fd fds =>
      cases fd with
      | mk name isC st df =>
          simp only [hanaDeserializeFields] at h
          by_cases hc : isC = true
          · rw [if_pos hc] at h
            cases hrest : hanaDeserializeFields ms fds with
            | error e0 =>
                rw [hrest, exceptErrorBind] at h
                simp at h
                exact h ▸ hanaDeserializeFields_path fds ms e0 hrest
            | ok fs => rw [hrest, exceptOkBind] at h; simp [pure, Except.pure] at h
          · rw [if_neg hc] at h
            cases hlk : ms.lookup name with
            | none =>
                simp only [hlk] at h
                cases hrest : hanaDeserializeFields ms fds with
                | error e0 =>
                    rw [hrest, exceptErrorBind] at h
                    simp at h
                    exact h ▸ hanaDeserializeFields_path fds ms e0 hrest
                | ok fs => rw [hrest, exceptOkBind] at h; simp [pure, Except.pure] at h
            | some n0 =>
                simp only [hlk] at h
                cases hd : hanaDeserialize n0 st with
                | error e0 =>
                    rw [hd, exceptErrorBind] at h
                    simp at h
                    exact h ▸ hanaDeserialize_path st n0 e0 hd
                | ok v =>
                    rw [hd, exceptOkBind] at h
                    cases hrest : hanaDeserializeFields ms fds with
                    | error e0 =>
                        rw [hrest, exceptErrorBind] at h
                        simp at h
                        exact h ▸ hanaDeserializeFields_path fds ms e0 hrest
                    | ok fs => rw [hrest, exceptOkBind] at h; simp [pure, Except.pure] at h
  termination_by (sizeOf fds, sizeOf ms)
  decreasing_by all_goals (subst_vars; decreasing_tactic)
end

/-- Deserializing the empty member list leaves every field at its
default-constructed value. -/
theorem deserializeFields_nil_members (fds : List FieldD) (ctx : List Seg) :
    deserializeFields [] fds ctx = Except.ok (fds.map fun fd => (fd.name, fd.dflt)) := by
  induction fds with
  | nil => simp [deserializeFields]
  | cons fd fds ih =>
      cases fd with
      | mk name isC st df =>
          cases isC <;>
            (simp [deserializeFields, List.lookup, ih, FieldD.name, FieldD.dflt]; try rfl)

/-- A field whose member is absent from the object keeps its
default-constructed value in the deserialized result. -/
theorem deserializeFields_missing (ms : List (String × Node)) (fds : List FieldD)
    (ctx : List Seg) (out : List (String × Value)) (name : String) (isC : Bool)
    (st : Strategy) (df : Value)
    (h : deserializeFields ms fds ctx = Except.ok out)
    (hmem : FieldD.mk name isC st df ∈ fds)
    (habs : ms.lookup name = none) : (name, df) ∈ out := by
  induction fds generalizing out with
  | nil => simp at hmem
  | cons fd fds ih =>
      cases fd with
      | mk nm c0 st0 df0 =>
          simp only [deserializeFields] at h
          rcases List.mem_cons.mp hmem with hhead | htail
          · injection hhead with h1 h2 h3 h4
            subst h1
            subst h2
            subst h3
            subst h4
            by_cases hc : isC = true
            · rw [if_pos hc] at h
              cases hrest : deserializeFields ms fds ctx with
              | error e0 => rw [hrest, exceptErrorBind] at h; simp at h
              | ok rest =>
                  rw [hrest, exceptOkBind] at h
                  simp [pure, Except.pure] at h
                  rw [← h]
                  simp
            · rw [if_neg hc, habs] at h
              cases hrest : deserializeFields ms fds ctx with
              | error e0 => rw [hrest, exceptErrorBind] at h; simp at h
              | ok rest =>
                  rw [hrest, exceptOkBind] at h
                  simp [pure, Except.pure] at h
                  rw [← h]
                  simp
          · by_cases hc : c0 = true
            · rw [if_pos hc] at h
              cases hrest : deserializeFields ms fds ctx with
              | error e0 => rw [hrest, exceptErrorBind] at h; simp at h
              | ok rest =>
                  rw [hrest, exceptOkBind] at h
                  simp [pure, Except.pure] at h
                  rw [← h]
                  exact List.mem_cons_of_mem _ (ih rest hrest htail)
            · rw [if_neg hc] at h
              cases hlk : ms.lookup nm with
              | none =>
                  simp only [hlk] at h
                  cases hrest : deserializeFields ms fds ctx with
                  | error e0 => rw [hrest, exceptErrorBind] at h; simp at h
                  | ok rest =>
                      rw [hrest, exceptOkBind] at h
                      simp [pure, Except.pure] at h
                      rw [← h]
                      exact List.mem_cons_of_mem _ (ih rest hrest htail)
              | some n0 =>
                  simp only [hlk] at h
                  cases hd : deserialize n0 st0 (ctx ++ [Seg.fieldName nm]) with
                  | error e0 => rw [hd, exceptErrorBind] at h; simp at h
                  | ok v =>
                      rw [hd, exceptOkBind] at h
                      cases hrest : deserializeFields ms fds ctx with
                      | error e0 => rw [hrest, exceptErrorBind] at h; simp at h
                      | ok rest =>
                          rw [hrest, exceptOkBind] at h
                          simp [pure, Except.pure] at h
                          rw [← h]
                          exact List.mem_cons_of_mem _ (ih rest hrest htail)

/-- A const field keeps its default-constructed value in the
deserialized result, whatever the object's members. -/
theorem deserializeFields_const (ms : List (String × Node)) (fds : List FieldD)
    (ctx : List Seg) (out : List (String × Value)) (name : String)
    (st : Strategy) (df : Value)
    (h : deserializeFields ms fds ctx = Except.ok out)
    (hmem : FieldD.mk name true st df ∈ fds) : (name, df) ∈ out := by
  induction fds generalizing out with
  | nil => simp at hmem
  | cons fd fds ih =>
      cases fd with
      | mk nm c0 st0 df0 =>
          simp only [deserializeFields] at h
          rcases List.mem_cons.mp hmem with hhead | htail
          · injection hhead with h1 h2 h3 h4
            subst h1
            subst h3
            subst h4
            rw [if_pos h2.symm] at h
            cases hrest : deserializeFields ms fds ctx with
            | error e0 => rw [hrest, exceptErrorBind] at h; simp at h
            | ok rest =>
                rw [hrest, exceptOkBind] at h
                simp [pure, Except.pure] at h
                rw [← h]
                simp
          · by_cases hc : c0 = true
            · rw [if_pos hc] at h
              cases hrest : deserializeFields ms fds ctx with
              | error e0 => rw [hrest, exceptErrorBind] at h; simp at h
              | ok rest =>
                  rw [hrest, exceptOkBind] at h
                  simp [pure, Except.pure] at h
                  rw [← h]
                  exact List.mem_cons_of_mem _ (ih rest hrest htail)
            · rw [if_neg hc] at h
              cases hlk : ms.lookup nm with
              | none =>
                  simp only [hlk] at h
                  cases hrest : deserializeFields ms fds ctx with
                  | error e0 => rw [hrest, exceptErrorBind] at h; simp at h
                  | ok rest =>
                      rw [hrest, exceptOkBind] at h
                      simp [pure, Except.pure] at h
                      rw [← h]
                      exact List.mem_cons_of_mem _ (ih rest hrest htail)
              | some n0 =>
                  simp only [hlk] at h
                  cases hd : deserialize n0 st0 (ctx ++ [Seg.fieldName nm]) with
                  | error e0 => rw [hd, exceptErrorBind] at h; simp at h
                  | ok v =>
                      rw [hd, exceptOkBind] at h
                      cases hrest : deserializeFields ms fds ctx with
                      | error e0 => rw [hrest, exceptErrorBind] at h; simp at h
                      | ok rest =>
                          rw [hrest, exceptOkBind] at h
                          simp [pure, Except.pure] at h
                          rw [← h]
                          exact List.mem_cons_of_mem _ (ih rest hrest htail)

/-! ## Claims -/

/-- C6: every enumeration field serializes as its underlying integer
value, and deserializing any integer into an enumeration field —
including an integer matching no enumerator — succeeds and stores the
raw value verbatim, with no membership validation in either direction. -/
theorem c6_enumeration_raw :
    (∀ i : Int, serialize (Value.vEnum i) Strategy.enumeration = some (Node.num i)) ∧
    (∀ (i : Int) (ctx : List Seg),
      deserialize (Node.num i) Strategy.enumeration ctx = Except.ok (Value.vEnum i)) := by
  constructor
  · intro i
    simp [serialize]
  · intro i ctx
    simp [deserialize]

/-- C7: serialization is a total function over the domain of well-typed
values — for every well-typed value, `toJson` returns a node and never
fails. -/
theorem c7_serialization_total (v : Value) (s : Strategy)
    (hw : wellTyped v s = true) : ∃ n, toJson v s = some n := by
  obtain ⟨n, hn⟩ := serialize_total s v hw
  exact ⟨n, by simpa [toJson] using hn⟩

/-- Witness for C7 at a concrete well-typed value: a vector of one
integer. -/
theorem c7_serialization_total_witness :
    wellTyped (Value.vSeq [Value.vInt 1]) (Strategy.seqContainer Strategy.primInt) = true ∧
    ∃ n, toJson (Value.vSeq [Value.vInt 1]) (Strategy.seqContainer Strategy.primInt) = some n := by
  have hw : wellTyped (Value.vSeq [Value.vInt 1]) (Strategy.seqContainer Strategy.primInt) = true := by
    simp [wellTyped, wellTypedList]
  exact ⟨hw, c7_serialization_total _ _ hw⟩

/-- C9: `const char *` fields participate in serialization only — the
dispatch resolver maps `const char *` to the string strategy for
serialization, serializing such a field yields a String node, and the
deserialization resolver excludes it, so deserialization never assigns
to a `const char *` field. -/
theorem c9_const_char_ptr_serialize_only :
    resolveSer CppType.constCharPtr = some Strategy.text ∧
    (∀ s : String, serialize (Value.vStr s) Strategy.text = some (Node.str s)) ∧
    resolveDeser CppType.constCharPtr = none := by
  refine ⟨rfl, ?_, rfl⟩
  intro s
  simp [serialize]

/-- C10: deserialization of a sequence container is defined only for
containers with `emplace_back` — `std::forward_list` does not resolve
for deserialization while it resolves for serialization (which needs
only iteration), and `std::vector` resolves for both; the asymmetry is
a resolution-time condition, not a runtime error. -/
theorem c10_emplace_back_requirement :
    (∀ t : CppType, resolveSer (CppType.forwardListOf t) =
      Option.map Strategy.seqContainer (resolveSer t)) ∧
    (∀ t : CppType, resolveDeser (CppType.forwardListOf t) = none) ∧
    (∀ t : CppType, resolveDeser (CppType.vectorOf t) =
      Option.map Strategy.seqContainer (resolveDeser t)) ∧
    resolveSer (CppType.forwardListOf CppType.tInt) =
      some (Strategy.seqContainer Strategy.primInt) := by
  exact ⟨fun t => rfl, fun t => rfl, fun t => rfl, rfl⟩

/-- C1, counterexample to the claim as stated: for the reflective type
with one non-const field `p` of doubly-nullable (smart-pointer to
smart-pointer) type, the value whose outer reference is present and
whose inner reference is absent serializes to `{"p": null}`, which
deserializes to the value whose outer reference is absent — a value
that differs from the original on the non-const field `p`, so
`fromJson(toJson(v))` is not field-by-field equal to `v` even with
const fields excluded. -/
theorem c1_counterexample :
    wellTyped nestedNullableV nestedNullableS = true ∧
    toJson nestedNullableV nestedNullableS = some (Node.obj [("p", Node.null)]) ∧
    fromJson (Node.obj [("p", Node.null)]) nestedNullableS =
      Except.ok (Value.vObj [("p", Value.vOpt none)]) ∧
    eqModConst nestedNullableS nestedNullableV (Value.vObj [("p", Value.vOpt none)]) = false ∧
    Value.vObj [("p", Value.vOpt none)] ≠ nestedNullableV := by
  refine ⟨?_, ?_, ?_, ?_, ?_⟩
  · simp [nestedNullableV, nestedNullableS, wellTyped, wellTypedFields]
  · simp [nestedNullableV, nestedNullableS, toJson, serialize, serializeFields]
  · simp [nestedNullableS, fromJson, deserialize, deserializeFields, List.lookup]
    rfl
  · simp [nestedNullableV, nestedNullableS, eqModConst, eqFieldsModConst]
  · simp [nestedNullableV]

/-- C1, amended: for every well-typed value of a reflective type with no
custom overrides and spec-assumed unique field names, provided no
present nullable reference in the value directly holds an absent
nullable reference, deserializing the result of serializing the value
succeeds and yields a value that is field-by-field equal to the
original with const fields excluded from the comparison (the const
fields come back as their defaults, `scrub v s`). -/
theorem c1_roundtrip_mod_const (v : Value) (s : Strategy) (ctx : List Seg)
    (hw : wellTyped v s = true) (hu : uniqNames s = true) (hr : robust v = true) :
    ∃ n, toJson v s = some n ∧
      deserialize n s ctx = Except.ok (scrub v s) ∧
      eqModConst s v (scrub v s) = true := by
  obtain ⟨n, hn⟩ := serialize_total s v hw
  exact ⟨n, by simpa [toJson] using hn,
    roundTrip s v n ctx hw hr hu hn, eqModConst_scrub s v hw⟩

/-- Witness for the amended C1 at a concrete value of `TestStruct`. -/
theorem c1_roundtrip_mod_const_witness :
    wellTyped (Value.vObj [("someInt", Value.vInt 5), ("someString", Value.vStr "x"),
      ("yetAnotherString", Value.vStr "y")]) testStructS = true ∧
    uniqNames testStructS = true ∧
    robust (Value.vObj [("someInt", Value.vInt 5), ("someString", Value.vStr "x"),
      ("yetAnotherString", Value.vStr "y")]) = true ∧
    ∃ n, toJson (Value.vObj [("someInt", Value.vInt 5), ("someString", Value.vStr "x"),
        ("yetAnotherString", Value.vStr "y")]) testStructS = some n ∧
      deserialize n testStructS [] = Except.ok (scrub (Value.vObj [("someInt", Value.vInt 5),
        ("someString", Value.vStr "x"), ("yetAnotherString", Value.vStr "y")]) testStructS) ∧
      eqModConst testStructS (Value.vObj [("someInt", Value.vInt 5), ("someString", Value.vStr "x"),
        ("yetAnotherString", Value.vStr "y")])
        (scrub (Value.vObj [("someInt", Value.vInt 5), ("someString", Value.vStr "x"),
          ("yetAnotherString", Value.vStr "y")]) testStructS) = true := by
  have hfl : flatten testStructC =
      [FieldD.mk "someInt" false Strategy.primInt (Value.vInt 0),
       FieldD.mk "someString" false Strategy.text (Value.vStr "foo"),
       FieldD.mk "yetAnotherString" false Strategy.text (Value.vStr "bar")] := rfl
  have hw : wellTyped (Value.vObj [("someInt", Value.vInt 5), ("someString", Value.vStr "x"),
      ("yetAnotherString", Value.vStr "y")]) testStructS = true := by
    simp [testStructS, hfl, wellTyped, wellTypedFields]
  have hu : uniqNames testStructS = true := by
    simp [testStructS, hfl, uniqNames, uniqNamesFields, distinctNames, FieldD.name, FieldD.strat]
  have hr : robust (Value.vObj [("someInt", Value.vInt 5), ("someString", Value.vStr "x"),
      ("yetAnotherString", Value.vStr "y")]) = true := by
    simp [robust, robustPairs]
  exact ⟨hw, hu, hr, c1_roundtrip_mod_const _ _ [] hw hu hr⟩

/-- C4, counterexample to the claim as stated: at the doubly-nullable
strategy, the present value holding an absent inner reference
serializes to `null`, which deserializes back to the absent state — so
a present value does not always round-trip. -/
theorem c4_counterexample :
    wellTyped (Value.vOpt (some (Value.vOpt none)))
      (Strategy.nullable (Strategy.nullable Strategy.primBool)) = true ∧
    serialize (Value.vOpt (some (Value.vOpt none)))
      (Strategy.nullable (Strategy.nullable Strategy.primBool)) = some Node.null ∧
    fromJson Node.null (Strategy.nullable (Strategy.nullable Strategy.primBool)) =
      Except.ok (Value.vOpt none) ∧
    Value.vOpt none ≠ Value.vOpt (some (Value.vOpt none)) := by
  refine ⟨?_, ?_, ?_, ?_⟩
  · simp [wellTyped]
  · simp [serialize]
  · simp [fromJson, deserialize]
  · simp

/-- C4, amended: serializing an absent nullable yields `null`;
deserializing `null` yields the absent state; and a present value
round-trips provided it is not itself an absent nullable and no present
nullable inside it directly holds an absent nullable, with const fields
restored to defaults (`scrub`) and the comparison `eqModConst` holding
on everything else. -/
theorem c4_nullable_protocol :
    (∀ s : Strategy, serialize (Value.vOpt none) (Strategy.nullable s) = some Node.null) ∧
    (∀ (s : Strategy) (ctx : List Seg),
      deserialize Node.null (Strategy.nullable s) ctx = Except.ok (Value.vOpt none)) ∧
    (∀ (s : Strategy) (u : Value) (ctx : List Seg),
      wellTyped u s = true → uniqNames s = true → robust u = true → isAbsent u = false →
      ∃ n, serialize (Value.vOpt (some u)) (Strategy.nullable s) = some n ∧
        deserialize n (Strategy.nullable s) ctx =
          Except.ok (Value.vOpt (some (scrub u s))) ∧
        eqModConst (Strategy.nullable s) (Value.vOpt (some u))
          (Value.vOpt (some (scrub u s))) = true) := by
  refine ⟨?_, ?_, ?_⟩
  · intro s
    simp [serialize]
  · intro s ctx
    simp [deserialize]
  · intro s u ctx hw hu hr ha
    obtain ⟨n, hn⟩ := serialize_total s u hw
    have hnn : n ≠ Node.null := by
      intro hEq
      exact serialize_ne_null s u hw hr ha (hEq ▸ hn)
    have hdes : deserialize n s ctx = Except.ok (scrub u s) :=
      roundTrip s u n ctx hw hr hu hn
    refine ⟨n, by simpa [serialize] using hn, ?_, ?_⟩
    · rw [deserialize_nullable_ne_null s n ctx hnn, hdes, exceptOkMap]
    · simp [eqModConst, eqModConst_scrub s u hw]

/-- Witness for the amended C4 at a present integer value. -/
theorem c4_nullable_protocol_witness :
    wellTyped (Value.vInt 7) Strategy.primInt = true ∧
    isAbsent (Value.vInt 7) = false ∧
    ∃ n, serialize (Value.vOpt (some (Value.vInt 7))) (Strategy.nullable Strategy.primInt) = some n ∧
      deserialize n (Strategy.nullable Strategy.primInt) [] =
        Except.ok (Value.vOpt (some (scrub (Value.vInt 7) Strategy.primInt))) ∧
      eqModConst (Strategy.nullable Strategy.primInt) (Value.vOpt (some (Value.vInt 7)))
        (Value.vOpt (some (scrub (Value.vInt 7) Strategy.primInt))) = true := by
  have hw : wellTyped (Value.vInt 7) Strategy.primInt = true := by simp [wellTyped]
  have ha : isAbsent (Value.vInt 7) = false := by simp [isAbsent]
  exact ⟨hw, ha, c4_nullable_protocol.2.2 Strategy.primInt (Value.vInt 7) [] hw
    (by simp [uniqNames]) (by simp [robust]) ha⟩

/-- C2: serializing a value of a derived reflective type yields an
Object whose members are exactly the flattened field list (in general,
member names equal the descriptor names in order); concretely, the base
fields of `DerivedTestStruct` come first and `someBool` last,
`MultipleDerivedTestStruct` inherits from two reflective bases in
declaration order while its non-reflective base `NonSerializable`
contributes nothing, `Person` keeps `{age, alive}` in order, the
diamond class `D` picks up the doubly-reachable base `A` only once
(first occurrence), and a non-reflective type contributes no fields at
all. -/
theorem c2_inheritance_flattening :
    (∀ (c : CClass) (fs : List (String × Value)) (ms : List (String × Node)),
      serialize (Value.vObj fs) (Strategy.reflectiveObject (flatten c)) =
        some (Node.obj ms) →
      ms.map Prod.fst = (flatten c).map FieldD.name) ∧
    (flatten derivedTestStructC).map FieldD.name =
      ["someInt", "someString", "yetAnotherString", "someBool"] ∧
    (flatten multipleDerivedTestStructC).map FieldD.name =
      ["someInt", "someString", "yetAnotherString", "arrayOfStrings", "someBool"] ∧
    (flatten personC).map FieldD.name = ["age", "alive"] ∧
    (flatten diamondTopC).map FieldD.name = ["x", "y", "z", "w"] ∧
    flatten nonSerializableC = [] := by
  refine ⟨?_, by decide, by decide, by decide, by decide, rfl⟩
  intro c fs ms h
  simp only [serialize] at h
  cases hsf : serializeFields fs (flatten c) with
  | none => rw [hsf] at h; simp at h
  | some ms0 =>
      rw [hsf] at h
      simp at h
      exact h ▸ serializeFields_names fs (flatten c) ms0 hsf

/-- Witness for C2 at a concrete `DerivedTestStruct` value. -/
theorem c2_inheritance_flattening_witness :
    serialize (Value.vObj [("someInt", Value.vInt 1), ("someString", Value.vStr "a"),
        ("yetAnotherString", Value.vStr "b"), ("someBool", Value.vBool false)])
      (Strategy.reflectiveObject (flatten derivedTestStructC)) =
      some (Node.obj [("someInt", Node.num 1), ("someString", Node.str "a"),
        ("yetAnotherString", Node.str "b"), ("someBool", Node.boolean false)]) ∧
    [("someInt", Node.num 1), ("someString", Node.str "a"),
      ("yetAnotherString", Node.str "b"), ("someBool", Node.boolean false)].map Prod.fst =
      (flatten derivedTestStructC).map FieldD.name := by
  have hfl : flatten derivedTestStructC =
      [FieldD.mk "someInt" false Strategy.primInt (Value.vInt 0),
       FieldD.mk "someString" false Strategy.text (Value.vStr "foo"),
       FieldD.mk "yetAnotherString" false Strategy.text (Value.vStr "bar"),
       FieldD.mk "someBool" false Strategy.primBool (Value.vBool true)] := rfl
  have hser : serialize (Value.vObj [("someInt", Value.vInt 1), ("someString", Value.vStr "a"),
        ("yetAnotherString", Value.vStr "b"), ("someBool", Value.vBool false)])
      (Strategy.reflectiveObject (flatten derivedTestStructC)) =
      some (Node.obj [("someInt", Node.num 1), ("someString", Node.str "a"),
        ("yetAnotherString", Node.str "b"), ("someBool", Node.boolean false)]) := by
    rw [hfl]
    simp [serialize, serializeFields]
  exact ⟨hser, c2_inheritance_flattening.1 derivedTestStructC _ _ hser⟩

/-- C3: every deserialization failure carries a path extending the
context accumulated from the document root; in particular, the README's
nested example fails with a `TypeMismatch` whose path is
`testObjects[0].number` (expected a number, found a string). -/
theorem c3_error_path :
    (∀ (s : Strategy) (n : Node) (ctx : List Seg) (er : DeserErr),
      deserialize n s ctx = Except.error er → ∃ r, er.path = ctx ++ r) ∧
    fromJson (Node.obj [("name", Node.str "x"),
        ("testObjects", Node.arr [Node.obj [("number", Node.str "notanumber")]])])
      nestingArrayS =
      Except.error (DeserErr.typeMismatch
        [Seg.fieldName "testObjects", Seg.index 0, Seg.fieldName "number"]
        NodeKind.numberKind NodeKind.stringKind) := by
  refine ⟨deserialize_path, ?_⟩
  simp [nestingArrayS, fromJson, deserialize, deserializeFields, deserializeElems,
    List.lookup, Node.kind]
  rfl

/-- Witness for C3: the general path property applied to the concrete
failing document. -/
theorem c3_error_path_witness :
    deserialize (Node.obj [("name", Node.str "x"),
        ("testObjects", Node.arr [Node.obj [("number", Node.str "notanumber")]])])
      nestingArrayS [] =
      Except.error (DeserErr.typeMismatch
        [Seg.fieldName "testObjects", Seg.index 0, Seg.fieldName "number"]
        NodeKind.numberKind NodeKind.stringKind) ∧
    ∃ r, (DeserErr.typeMismatch
        [Seg.fieldName "testObjects", Seg.index 0, Seg.fieldName "number"]
        NodeKind.numberKind NodeKind.stringKind).path = [] ++ r := by
  have h : deserialize (Node.obj [("name", Node.str "x"),
        ("testObjects", Node.arr [Node.obj [("number", Node.str "notanumber")]])])
      nestingArrayS [] =
      Except.error (DeserErr.typeMismatch
        [Seg.fieldName "testObjects", Seg.index 0, Seg.fieldName "number"]
        NodeKind.numberKind NodeKind.stringKind) := by
    simp [nestingArrayS, deserialize, deserializeFields, deserializeElems,
      List.lookup, Node.kind]
    rfl
  exact ⟨h, c3_error_path.1 nestingArrayS _ [] _ h⟩

/-- C5: a missing member is not an error — deserializing an object with
no members leaves every field at its default-constructed value; in
general any field whose name has no member keeps its default; and
concretely `{}` deserializes into the `{number = 0, text = "foo"}` type
as its default construction. -/
theorem c5_missing_member_default :
    (∀ (fds : List FieldD) (ctx : List Seg),
      deserialize (Node.obj []) (Strategy.reflectiveObject fds) ctx =
        Except.ok (Value.vObj (fds.map fun fd => (fd.name, fd.dflt)))) ∧
    (∀ (ms : List (String × Node)) (fds : List FieldD) (ctx : List Seg)
        (out : List (String × Value)) (name : String) (isC : Bool) (st : Strategy) (df : Value),
      deserializeFields ms fds ctx = Except.ok out →
      FieldD.mk name isC st df ∈ fds →
      ms.lookup name = none →
      (name, df) ∈ out) ∧
    fromJson (Node.obj []) testObjectS =
      Except.ok (Value.vObj [("number", Value.vInt 0), ("text", Value.vStr "foo")]) := by
  refine ⟨?_, deserializeFields_missing, ?_⟩
  · intro fds ctx
    simp only [deserialize, deserializeFields_nil_members, exceptOkBind]
    rfl
  · simp [testObjectS, fromJson, deserialize, deserializeFields, List.lookup]

/-- Witness for C5: the general missing-member rule applied to a
concrete object providing only `number`, with `text` absent. -/
theorem c5_missing_member_default_witness :
    deserializeFields [("number", Node.num 5)]
      [FieldD.mk "number" false Strategy.primInt (Value.vInt 0),
       FieldD.mk "text" false Strategy.text (Value.vStr "foo")] [] =
      Except.ok [("number", Value.vInt 5), ("text", Value.vStr "foo")] ∧
    ("text", Value.vStr "foo") ∈
      [("number", Value.vInt 5), ("text", Value.vStr "foo")] := by
  have h : deserializeFields [("number", Node.num 5)]
      [FieldD.mk "number" false Strategy.primInt (Value.vInt 0),
       FieldD.mk "text" false Strategy.text (Value.vStr "foo")] [] =
      Except.ok [("number", Value.vInt 5), ("text", Value.vStr "foo")] := by
    simp [deserializeFields, deserialize, List.lookup]
    rfl
  exact ⟨h, c5_missing_member_default.2.1 [("number", Node.num 5)] _ [] _ "text" false
    Strategy.text (Value.vStr "foo") h (by simp) (by simp [List.lookup])⟩

/-- C8: the Boost.Hana reflector covers only the type's own
`BOOST_HANA_DEFINE_STRUCT` fields — it agrees with the generator's
flattened list exactly on base-less reflective types, omits all
inherited members of `DerivedTestStruct`, and its type-mismatch errors
carry no path context. -/
theorem c8_hana_refinement :
    (∀ c : CClass, c.bases = [] → c.isRefl = true → hanaFields c = flatten c) ∧
    hanaFields derivedTestStructC ≠ flatten derivedTestStructC ∧
    (hanaFields derivedTestStructC).map FieldD.name = ["someBool"] ∧
    (flatten derivedTestStructC).map FieldD.name =
      ["someInt", "someString", "yetAnotherString", "someBool"] ∧
    (∀ (s : Strategy) (n : Node) (er : DeserErr),
      hanaDeserialize n s = Except.error er → er.path = []) := by
  refine ⟨?_, ?_, by decide, by decide, hanaDeserialize_path⟩
  · intro c hb hr
    cases c with
    | mk nm isR bs own =>
        simp [CClass.bases] at hb
        simp [CClass.isRefl] at hr
        subst hb
        subst hr
        simp [hanaFields, CClass.ownFields, flatten, collect, collectBases]
  · intro h
    have h2 := congrArg (List.map FieldD.name) h
    exact absurd h2 (by decide)

/-- Witness for C8: the base-less `Person` type agrees between the two
reflectors, and a concrete Hana failure carries the empty path. -/
theorem c8_hana_refinement_witness :
    personC.bases = [] ∧ personC.isRefl = true ∧
    hanaFields personC = flatten personC ∧
    hanaDeserialize (Node.str "x") Strategy.primInt =
      Except.error (DeserErr.typeMismatch [] NodeKind.numberKind NodeKind.stringKind) ∧
    (DeserErr.typeMismatch [] NodeKind.numberKind NodeKind.stringKind).path = [] := by
  have hb : personC.bases = [] := rfl
  have hr : personC.isRefl = true := rfl
  have hh : hanaDeserialize (Node.str "x") Strategy.primInt =
      Except.error (DeserErr.typeMismatch [] NodeKind.numberKind NodeKind.stringKind) := by
    simp [hanaDeserialize, Node.kind]
  exact ⟨hb, hr, c8_hana_refinement.1 personC hb hr, hh,
    c8_hana_refinement.2.2.2.2 Strategy.primInt (Node.str "x") _ hh⟩

end ReflectiveRapidJSON
